import Mathlib

/-! # Backtracking reader of the parser-combinator package `pc`

A shallow embedding of `reader.go`: text positions and ranges, the
`Transactional` interface with its `Transaction` helper, and the
`InMemoryReader` (a rune cursor over a line-split text with a stack of saved
positions).

Conventions of the embedding.

* Go's `int` fields are `Int`.  The only arithmetic the reader does on them is
  `Line-1`, `Column-1` (both behind the `IsValid` guard, so the operand is
  positive) and `Line++`, `Column++` (both behind a comparison with a slice
  length, so the operand is at most the length of a Go slice); none of them
  can leave the 64-bit range, so no wrap-around is modelled.
* A `rune` is Go's `int32`, modelled as `Int`.
* A method with a pointer receiver takes the reader state and returns the new
  state next to its Go results.
* An index expression `xs[i]` is `goIndex xs i`, which is `none` where Go
  panics with an index out of range.
-/

namespace pc

/-! ## Positions and ranges -/

/-- TextPosition is the value type that represents the position of a text. -/
structure TextPosition where
  Line : Int
  Column : Int
  deriving DecidableEq, Repr

/-- IsValid checks the validity of the line and column. -/
def TextPosition.IsValid (p : TextPosition) : Bool :=
  decide (p.Line > 0) && decide (p.Column > 0)

/-- The zero value of `TextPosition`. -/
def TextPositionZero : TextPosition := ⟨0, 0⟩

/-- TextPositionStart is the start position of any text. -/
def TextPositionStart : TextPosition := ⟨1, 1⟩

/-- TextRange is the value type that represents the range of a text. -/
structure TextRange where
  Start : TextPosition
  End : TextPosition
  deriving DecidableEq, Repr

/-! ## Errors and runes -/

/-- The two error values the reader returns: `io.EOF` and
`errors.New("no active transaction")`. -/
inductive Error where
  | EOF
  | noActiveTransaction
  deriving DecidableEq, Repr

/-- Go's `rune` (an `int32`). -/
abbrev Rune := Int

/-- LineBreak is the rune `ReadRune` returns at the end of each line. -/
def LineBreak : Rune := 10

/-- Go's `utf8.RuneLen`: the number of bytes of the UTF-8 encoding of the rune,
`-1` when the rune is not a valid value to encode. -/
def RuneLen (r : Rune) : Int :=
  if r < 0 then -1
  else if r ≤ 0x7F then 1
  else if r ≤ 0x7FF then 2
  else if 0xD800 ≤ r ∧ r ≤ 0xDFFF then -1
  else if r ≤ 0xFFFF then 3
  else if r ≤ 0x10FFFF then 4
  else -1

/-- Go's index expression `xs[i]` on a slice: `none` stands for the run-time
panic on an index out of range. -/
def goIndex {α : Type} (xs : List α) (i : Int) : Option α :=
  if i < 0 then none else xs[i.toNat]?

/-! ## The in-memory reader -/

/-- InMemoryReader is an implementation of Reader.  `posStack` is the
`container/list` of saved positions, front first: `PushBack` appends, `Back`
is the last element. -/
structure InMemoryReader where
  lines : List (List Rune)
  pos : TextPosition
  posStack : List TextPosition
  deriving DecidableEq, Repr

/-- The three results `(rune, size, err)` of `ReadRune`. -/
structure ReadResult where
  rune : Rune
  size : Int
  err : Option Error
  deriving DecidableEq, Repr

namespace InMemoryReader

/-- ReadRune is a method of Reader interface.  The outer `Option` is `none`
when an index expression panics. -/
def ReadRune (r : InMemoryReader) : Option (ReadResult × InMemoryReader) :=
  if !r.pos.IsValid || decide ((r.lines.length : Int) ≤ r.pos.Line - 1) then
    some (⟨0, 0, some Error.EOF⟩, r)
  else
    match goIndex r.lines (r.pos.Line - 1) with
    | none => none
    | some line =>
      if (line.length : Int) > r.pos.Column - 1 then
        match goIndex line (r.pos.Column - 1) with
        | none => none
        | some rune =>
          some (⟨rune, RuneLen rune, none⟩,
            { r with pos := { r.pos with Column := r.pos.Column + 1 } })
      else
        some (⟨LineBreak, RuneLen LineBreak, none⟩,
          { r with pos := { Line := r.pos.Line + 1, Column := 1 } })

/-- CurrentPosition is a method of Reader interface. -/
def CurrentPosition (r : InMemoryReader) : TextPosition := r.pos

/-- Begin is a method of Reader interface. -/
def Begin (r : InMemoryReader) : InMemoryReader :=
  { r with posStack := r.posStack ++ [r.pos] }

/-- Commit is a method of Reader interface. -/
def Commit (r : InMemoryReader) : Option Error × InMemoryReader :=
  match r.posStack.getLast? with
  | none => (some Error.noActiveTransaction, r)
  | some _ => (none, { r with posStack := r.posStack.dropLast })

/-- Rollback is a method of Reader interface. -/
def Rollback (r : InMemoryReader) : Option Error × InMemoryReader :=
  match r.posStack.getLast? with
  | none => (some Error.noActiveTransaction, r)
  | some pos => (none, { r with posStack := r.posStack.dropLast, pos := pos })

end InMemoryReader

/-! ## Transactions -/

/-- Transactional has methods to make transaction.  A value of the interface
is its method table over the state `σ` of the receiver. -/
structure Transactional (σ : Type) where
  Begin : σ → σ
  Commit : σ → Option Error × σ
  Rollback : σ → Option Error × σ

/-- Transaction is a helper for a Transactional type.  The Go field `t` is a
reference to the transactional value; its state is threaded next to the
`Transaction` by the methods below. -/
structure Transaction where
  done : Bool
  deriving DecidableEq, Repr

/-- NewTransaction creates a Transaction instance. -/
def NewTransaction {σ : Type} (T : Transactional σ) (t : σ) : Transaction × σ :=
  (⟨false⟩, T.Begin t)

namespace Transaction

/-- Guard is assumed to be used with defer. -/
def Guard {σ : Type} (T : Transactional σ) (txn : Transaction) (t : σ) : Transaction × σ :=
  if !txn.done then (txn, (T.Rollback t).2) else (txn, t)

/-- Commit calls the Commit method of the transactional instance. -/
def Commit {σ : Type} (T : Transactional σ) (_txn : Transaction) (t : σ) :
    Option Error × Transaction × σ :=
  ((T.Commit t).1, ⟨true⟩, (T.Commit t).2)

/-- Rollback calls the Rollback method of the transactional instance. -/
def Rollback {σ : Type} (T : Transactional σ) (_txn : Transaction) (t : σ) :
    Option Error × Transaction × σ :=
  ((T.Rollback t).1, ⟨true⟩, (T.Rollback t).2)

end Transaction

/-- The method table of `*InMemoryReader` as a `Transactional`. -/
def InMemoryReader.asTransactional : Transactional InMemoryReader :=
  ⟨InMemoryReader.Begin, InMemoryReader.Commit, InMemoryReader.Rollback⟩

/-- The names of the three methods of `Transactional`. -/
inductive TxnMethod where
  | Begin
  | Commit
  | Rollback
  deriving DecidableEq, Repr

/-- A `Transactional` that forwards every call to `T` and appends the name of
the method to a log: the log is the sequence of invocations made on `T`. -/
def Transactional.logged {σ : Type} (T : Transactional σ) : Transactional (List TxnMethod × σ) where
  Begin := fun s => (s.1 ++ [TxnMethod.Begin], T.Begin s.2)
  Commit := fun s => ((T.Commit s.2).1, (s.1 ++ [TxnMethod.Commit], (T.Commit s.2).2))
  Rollback := fun s => ((T.Rollback s.2).1, (s.1 ++ [TxnMethod.Rollback], (T.Rollback s.2).2))

/-! ## Sequences of calls on a reader -/

/-- The calls a client can make on a `Reader` that change or may change it. -/
inductive Call where
  | ReadRune
  | Begin
  | Commit
  | Rollback
  deriving DecidableEq, Repr

namespace InMemoryReader

/-- One call on the reader: the error it returned (`none` for `nil` and for
`Begin`, which returns nothing) and the new state; the outer `none` is a
panic. -/
def call (c : Call) (r : InMemoryReader) : Option (Option Error × InMemoryReader) :=
  match c with
  | Call.ReadRune => (r.ReadRune).map (fun x => (x.1.err, x.2))
  | Call.Begin => some (none, r.Begin)
  | Call.Commit => some r.Commit
  | Call.Rollback => some r.Rollback

/-- The calls of `cs` made in order from `r`: the errors they returned, in
order, and the final state. -/
def run : List Call → InMemoryReader → Option (List (Option Error) × InMemoryReader)
  | [], r => some ([], r)
  | c :: cs, r =>
    match call c r with
    | none => none
    | some (e, r1) =>
      match run cs r1 with
      | none => none
      | some (es, r2) => some (e :: es, r2)

/-- The cursor positions before, and the results of, `n` successive `ReadRune`
calls from `r`, with the final state. -/
def readTrace : Nat → InMemoryReader → Option (List (TextPosition × ReadResult) × InMemoryReader)
  | 0, r => some ([], r)
  | n + 1, r =>
    match r.ReadRune with
    | none => none
    | some (res, r1) =>
      match readTrace n r1 with
      | none => none
      | some (tr, r2) => some ((r.CurrentPosition, res) :: tr, r2)

end InMemoryReader

/-- Whether a sequence of calls is well bracketed above `d` open
transactions: every `Commit` and `Rollback` resolves a `Begin` of the
sequence or one of the `d` transactions, and all of them are resolved at the
end. -/
def balancedFrom : Nat → List Call → Bool
  | d, [] => d == 0
  | d, Call.ReadRune :: cs => balancedFrom d cs
  | d, Call.Begin :: cs => balancedFrom (d + 1) cs
  | 0, Call.Commit :: _ => false
  | d + 1, Call.Commit :: cs => balancedFrom d cs
  | 0, Call.Rollback :: _ => false
  | d + 1, Call.Rollback :: cs => balancedFrom d cs

/-- A sequence of calls in which every `Begin` is resolved by a later `Commit`
or `Rollback` of the sequence and every `Commit` and `Rollback` resolves an
earlier `Begin` of the sequence. -/
def wellBracketed (cs : List Call) : Bool := balancedFrom 0 cs

/-- The number of `Commit` and `Rollback` calls of `cs` that returned no
error, `es` being the errors returned by the calls of `cs` in order. -/
def resolutions : List Call → List (Option Error) → Nat
  | Call.Commit :: cs, none :: es => resolutions cs es + 1
  | Call.Rollback :: cs, none :: es => resolutions cs es + 1
  | _ :: cs, _ :: es => resolutions cs es
  | _, _ => 0

/-! ## Construction of a reader from a text

`NewInMemoryReader` splits the bytes with a `bufio.Scanner` set to
`bufio.ScanLines` and converts each line to `[]rune`.  Both are Go library
code; they are embedded here as far as the reader depends on them. -/

/-- Go's `bufio.MaxScanTokenSize`, the size limit of the scanner's buffer. -/
def MaxScanTokenSize : Nat := 64 * 1024

/-- Go's `bufio.dropCR`: drops a terminal `\r` from the data. -/
def dropCR (data : List UInt8) : List UInt8 :=
  if data.getLast? = some 13 then data.dropLast else data

/-- The tokens a `bufio.Scanner` with `bufio.ScanLines` and the default buffer
yields over the rest of the input, `cur` being the bytes of the current line
seen so far.  A line ends at `\n` or at the end of the input, loses one final
`\r`, and no token is produced for an empty rest after the last `\n`.  The
scanner stops with `ErrTooLong` (which the caller ignores) when
`MaxScanTokenSize` bytes hold no line end. -/
def scanLinesFrom (cur : List UInt8) : List UInt8 → List (List UInt8)
  | [] =>
    if cur = [] ∨ MaxScanTokenSize ≤ cur.length then [] else [dropCR cur]
  | b :: rest =>
    if b = 10 then
      if MaxScanTokenSize ≤ cur.length then [] else dropCR cur :: scanLinesFrom [] rest
    else scanLinesFrom (cur ++ [b]) rest

/-- All tokens of the scanner over `buf`. -/
def scanLines (buf : List UInt8) : List (List UInt8) := scanLinesFrom [] buf

/-- Go's `utf8.RuneError`, the replacement character. -/
def RuneError : Rune := 0xFFFD

/-- Go's decoding of the first rune of a non-empty byte string, with its
width: an invalid or incomplete encoding gives `(RuneError, 1)`. -/
def decodeRune : List Nat → Rune × Nat
  | [] => (RuneError, 0)
  | b0 :: t =>
    if b0 < 0x80 then ((b0 : Int), 1)
    else if b0 < 0xC2 then (RuneError, 1)
    else if b0 < 0xE0 then
      match t with
      | b1 :: _ =>
        if 0x80 ≤ b1 ∧ b1 ≤ 0xBF then (((b0 % 32 * 64 + b1 % 64 : Nat) : Int), 2)
        else (RuneError, 1)
      | _ => (RuneError, 1)
    else if b0 < 0xF0 then
      match t with
      | b1 :: b2 :: _ =>
        if (if b0 = 0xE0 then 0xA0 else 0x80) ≤ b1 ∧ b1 ≤ (if b0 = 0xED then 0x9F else 0xBF) then
          if 0x80 ≤ b2 ∧ b2 ≤ 0xBF then
            (((b0 % 16 * 4096 + b1 % 64 * 64 + b2 % 64 : Nat) : Int), 3)
          else (RuneError, 1)
        else (RuneError, 1)
      | _ => (RuneError, 1)
    else if b0 < 0xF5 then
      match t with
      | b1 :: b2 :: b3 :: _ =>
        if (if b0 = 0xF0 then 0x90 else 0x80) ≤ b1 ∧ b1 ≤ (if b0 = 0xF4 then 0x8F else 0xBF) then
          if 0x80 ≤ b2 ∧ b2 ≤ 0xBF then
            if 0x80 ≤ b3 ∧ b3 ≤ 0xBF then
              (((b0 % 8 * 262144 + b1 % 64 * 4096 + b2 % 64 * 64 + b3 % 64 : Nat) : Int), 4)
            else (RuneError, 1)
          else (RuneError, 1)
        else (RuneError, 1)
      | _ => (RuneError, 1)
    else (RuneError, 1)

/-- The runes of a byte string decoded one after the other; `fuel` bounds the
number of runes and the length of the string is always enough. -/
def decodeRunes : Nat → List Nat → List Rune
  | 0, _ => []
  | _ + 1, [] => []
  | fuel + 1, b :: t =>
    (decodeRune (b :: t)).1 :: decodeRunes fuel ((b :: t).drop (decodeRune (b :: t)).2)

/-- Go's conversion `[]rune(s)` of a string to its runes. -/
def toRunes (s : List UInt8) : List Rune :=
  decodeRunes s.length (s.map UInt8.toNat)

/-- NewInMemoryReader creates an InMemoryReader instance as Reader. -/
def NewInMemoryReader (buf : List UInt8) : InMemoryReader :=
  { lines := (scanLines buf).map toRunes
    pos := TextPositionStart
    posStack := [] }

/-! ## The text a reader is built from, as the position model describes it -/

/-- The UTF-8 encoding of a Unicode scalar value, as bytes. -/
def utf8EncodeRune (c : Nat) : List Nat :=
  if c ≤ 0x7F then [c]
  else if c ≤ 0x7FF then [0xC0 + c / 64, 0x80 + c % 64]
  else if c ≤ 0xFFFF then [0xE0 + c / 4096, 0x80 + c / 64 % 64, 0x80 + c % 64]
  else [0xF0 + c / 262144, 0x80 + c / 4096 % 64, 0x80 + c / 64 % 64, 0x80 + c % 64]

/-- The UTF-8 encoding of a sequence of characters: a valid UTF-8 text. -/
def utf8Encode (cs : List Char) : List UInt8 :=
  (cs.flatMap (fun c => utf8EncodeRune c.toNat)).map UInt8.ofNat

/-- The text made of the lines `ls`, each followed by a line feed. -/
def textOfLines (ls : List (List Char)) : List Char :=
  (ls.map (fun l => l ++ ['\n'])).flatten

/-- The position of the character of index `i` of a text, in the words of the
position model: one plus the number of line feeds before it, and one plus the
number of characters since the last line feed. -/
def positionAt (text : List Char) (i : Nat) : TextPosition :=
  { Line := 1 + (((text.take i).count '\n' : Nat) : Int)
    Column := 1 + ((((text.take i).reverse.takeWhile (fun c => c != '\n')).length : Nat) : Int) }

/-- The successful result of reading the rune `c`. -/
def readOk (c : Rune) : ReadResult := ⟨c, RuneLen c, none⟩

/-- The reads the position model expects for the characters `cs` that start
at index `i` of `text`: every character in order, each at its position. -/
def expectedReadsFrom (text : List Char) : Nat → List Char → List (TextPosition × ReadResult)
  | _, [] => []
  | i, c :: cs => (positionAt text i, readOk (c.toNat : Int)) :: expectedReadsFrom text (i + 1) cs

/-- The reads the position model expects over a whole text. -/
def expectedReads (text : List Char) : List (TextPosition × ReadResult) :=
  expectedReadsFrom text 0 text

/-- The reads over the rest `cs` of line number `n`, the cursor being at
column `j`: the runes of `cs` at columns `j`, `j+1`, ... and then the line
break. -/
def lineReads (n : Int) : Int → List Rune → List (TextPosition × ReadResult)
  | j, [] => [(⟨n, j⟩, readOk LineBreak)]
  | j, c :: cs => (⟨n, j⟩, readOk c) :: lineReads n (j + 1) cs

/-- The reads over the stored lines `ls`, the first of which has number `n`. -/
def linesReads : Int → List (List Rune) → List (TextPosition × ReadResult)
  | _, [] => []
  | n, l :: ls => lineReads n 1 l ++ linesReads (n + 1) ls

/-! ## Rendering of positions and ranges -/

/-- Go's `%d` verb of `fmt` on an `int`: the decimal digits, after a minus
sign for a negative number. -/
def decimal (i : Int) : List Char :=
  if i < 0 then '-' :: Nat.toDigits 10 i.natAbs else Nat.toDigits 10 i.toNat

/-- String of a `TextPosition`: `fmt.Sprintf("%d:%d", p.Line, p.Column)`. -/
def TextPosition.String (p : TextPosition) : String :=
  String.mk (decimal p.Line ++ ':' :: decimal p.Column)

/-- String of a `TextRange`: `fmt.Sprintf("[%s,%s]", r.Start, r.End)`, where
`%s` renders a `TextPosition` with its `String` method. -/
def TextRange.String (r : TextRange) : String :=
  "[" ++ r.Start.String ++ "," ++ r.End.String ++ "]"

/-- The number a sequence of decimal digits stands for. -/
def decimalValue (ds : List Char) : Nat :=
  ds.foldl (fun acc c => acc * 10 + (c.toNat - 48)) 0

/-! ## Predicates on positions -/

/-- The conditions of the reachable-state invariant on a position over the
stored lines: it is valid, its line is between 1 and the number of lines plus
one, its column is at most the length of its line plus one when the line is
stored, and its column is 1 when the line is one past the last. -/
def TextPosition.inText (lines : List (List Rune)) (p : TextPosition) : Prop :=
  p.IsValid = true ∧ 1 ≤ p.Line ∧ p.Line ≤ (lines.length : Int) + 1 ∧
  (p.Line ≤ (lines.length : Int) →
    p.Column ≤ ((lines.getD (p.Line - 1).toNat []).length : Int) + 1) ∧
  (p.Line = (lines.length : Int) + 1 → p.Column = 1)

/-- The lexicographic order on `(Line, Column)`. -/
def TextPosition.lexLt (p q : TextPosition) : Prop :=
  p.Line < q.Line ∨ (p.Line = q.Line ∧ p.Column < q.Column)

/-- A line of characters without the carriage return that ends it, if
any. -/
def stripCR (l : List Char) : List Char :=
  if l.getLast? = some '\r' then l.dropLast else l

/-! ## The stack of saved positions as an untyped list

`container/list` stores values of type `any`, and `Rollback` asserts that the
value it pops is a `TextPosition`.  This second embedding of the transaction
methods keeps the dynamic type of the stored values, so that the type
assertion can fail. -/

/-- A value stored in an element of `container/list`: a `TextPosition`, or a
value of any other dynamic type. -/
inductive GoValue where
  | textPosition (p : TextPosition)
  | other
  deriving DecidableEq, Repr

/-- The reader with the stack as the untyped list it is in Go. -/
structure UntypedReader where
  lines : List (List Rune)
  pos : TextPosition
  posStack : List GoValue
  deriving DecidableEq, Repr

namespace UntypedReader

/-- ReadRune on the reader with the untyped stack; the method does not use
the stack. -/
def ReadRune (r : UntypedReader) : Option (ReadResult × UntypedReader) :=
  (InMemoryReader.ReadRune ⟨r.lines, r.pos, []⟩).map (fun x => (x.1, { r with pos := x.2.pos }))

/-- Begin: `r.posStack.PushBack(r.pos)`. -/
def Begin (r : UntypedReader) : UntypedReader :=
  { r with posStack := r.posStack ++ [GoValue.textPosition r.pos] }

/-- Commit removes the last element, whatever its dynamic type. -/
def Commit (r : UntypedReader) : Option Error × UntypedReader :=
  match r.posStack.getLast? with
  | none => (some Error.noActiveTransaction, r)
  | some _ => (none, { r with posStack := r.posStack.dropLast })

/-- Rollback removes the last element and asserts it to be a `TextPosition`:
`r.posStack.Remove(back).(TextPosition)`.  The outer `none` is the panic of a
failed type assertion. -/
def Rollback (r : UntypedReader) : Option (Option Error × UntypedReader) :=
  match r.posStack.getLast? with
  | none => some (some Error.noActiveTransaction, r)
  | some (GoValue.textPosition pos) =>
    some (none, { r with posStack := r.posStack.dropLast, pos := pos })
  | some GoValue.other => none

/-- One call on the reader with the untyped stack. -/
def call (c : Call) (r : UntypedReader) : Option (Option Error × UntypedReader) :=
  match c with
  | Call.ReadRune => (r.ReadRune).map (fun x => (x.1.err, x.2))
  | Call.Begin => some (none, r.Begin)
  | Call.Commit => some r.Commit
  | Call.Rollback => r.Rollback

/-- The calls of `cs` made in order on the reader with the untyped stack. -/
def run : List Call → UntypedReader → Option (List (Option Error) × UntypedReader)
  | [], r => some ([], r)
  | c :: cs, r =>
    match call c r with
    | none => none
    | some (e, r1) =>
      match run cs r1 with
      | none => none
      | some (es, r2) => some (e :: es, r2)

end UntypedReader

/-- The reader with the untyped stack that holds the typed stack of `r`, as
`Begin` stores it. -/
def InMemoryReader.untyped (r : InMemoryReader) : UntypedReader :=
  ⟨r.lines, r.pos, r.posStack.map GoValue.textPosition⟩

/-! ## The lines of a text -/

/-- The lines of the rest of a text, `cur` being the characters of the
current line seen so far: a line ends at a line feed or, when it is not
empty, at the end of the text. -/
def linesFrom (cur : List Char) : List Char → List (List Char)
  | [] => if cur = [] then [] else [cur]
  | c :: rest => if c = '\n' then cur :: linesFrom [] rest else linesFrom (cur ++ [c]) rest

/-- The lines of a text. -/
def linesOfText (s : List Char) : List (List Char) := linesFrom [] s

/-- The reads of the reader made over the text `s` are the characters of `s`
in order, one line break and `io.EOF`, each at the position it has in the
reads over `s` followed by a line feed. -/
def readsWithFinalBreak (s : List Char) : Prop :=
  ∃ p r1, (NewInMemoryReader (utf8Encode s)).readTrace (s.length + 2) =
    some (expectedReads (s ++ ['\n']) ++ [(p, ⟨0, 0, some Error.EOF⟩)], r1)


/-! ## Basic facts about the reader -/

theorem goIndex_of_lt {α : Type} (xs : List α) (i : Int) (h0 : 0 ≤ i) (h1 : i < xs.length) :
    ∃ x, goIndex xs i = some x ∧ xs[i.toNat]? = some x := by
  have hlt : i.toNat < xs.length := by omega
  refine ⟨xs[i.toNat], ?_, ?_⟩
  · unfold goIndex
    rw [if_neg (by omega)]
    exact List.getElem?_eq_getElem hlt
  · exact List.getElem?_eq_getElem hlt

theorem IsValid_iff (p : TextPosition) : p.IsValid = true ↔ 0 < p.Line ∧ 0 < p.Column := by
  simp [TextPosition.IsValid]

namespace InMemoryReader

/-- At the end of the input `ReadRune` returns `io.EOF` and the same state. -/
theorem ReadRune_eof (r : InMemoryReader)
    (h : r.pos.Line ≤ 0 ∨ r.pos.Column ≤ 0 ∨ (r.lines.length : Int) < r.pos.Line) :
    r.ReadRune = some (⟨0, 0, some Error.EOF⟩, r) := by
  unfold ReadRune
  rw [if_pos]
  simp only [TextPosition.IsValid, Bool.or_eq_true, Bool.not_eq_true', Bool.and_eq_false_iff,
    decide_eq_false_iff_not, decide_eq_true_eq]
  omega

/-- Inside a line `ReadRune` returns the rune under the cursor. -/
theorem ReadRune_inLine (r : InMemoryReader) (ln : List Rune) (c : Rune)
    (hL : 0 < r.pos.Line) (hC : 0 < r.pos.Column)
    (hline : r.lines[(r.pos.Line - 1).toNat]? = some ln)
    (hc : ln[(r.pos.Column - 1).toNat]? = some c) :
    r.ReadRune = some (⟨c, RuneLen c, none⟩,
      { lines := r.lines, pos := ⟨r.pos.Line, r.pos.Column + 1⟩, posStack := r.posStack }) := by
  have h1 : (r.pos.Line - 1).toNat < r.lines.length := (List.getElem?_eq_some_iff.1 hline).1
  have h2 : (r.pos.Column - 1).toNat < ln.length := (List.getElem?_eq_some_iff.1 hc).1
  unfold ReadRune
  rw [if_neg]
  · have g1 : goIndex r.lines (r.pos.Line - 1) = some ln := by
      unfold goIndex
      rw [if_neg (by omega)]
      exact hline
    have g2 : goIndex ln (r.pos.Column - 1) = some c := by
      unfold goIndex
      rw [if_neg (by omega)]
      exact hc
    simp only [g1]
    rw [if_pos (by omega)]
    simp only [g2]
  · simp only [TextPosition.IsValid, Bool.or_eq_true, Bool.not_eq_true', Bool.and_eq_false_iff,
      decide_eq_false_iff_not, decide_eq_true_eq]
    omega

/-- Past the last rune of a line `ReadRune` returns the line break and moves
to the start of the next line. -/
theorem ReadRune_lineEnd (r : InMemoryReader) (ln : List Rune)
    (hL : 0 < r.pos.Line) (hC : 0 < r.pos.Column)
    (hline : r.lines[(r.pos.Line - 1).toNat]? = some ln)
    (hc : (ln.length : Int) < r.pos.Column) :
    r.ReadRune = some (⟨LineBreak, 1, none⟩,
      { lines := r.lines, pos := ⟨r.pos.Line + 1, 1⟩, posStack := r.posStack }) := by
  have h1 : (r.pos.Line - 1).toNat < r.lines.length := (List.getElem?_eq_some_iff.1 hline).1
  unfold ReadRune
  rw [if_neg]
  · have g1 : goIndex r.lines (r.pos.Line - 1) = some ln := by
      unfold goIndex
      rw [if_neg (by omega)]
      exact hline
    simp only [g1]
    rw [if_neg (by omega)]
    rfl
  · simp only [TextPosition.IsValid, Bool.or_eq_true, Bool.not_eq_true', Bool.and_eq_false_iff,
      decide_eq_false_iff_not, decide_eq_true_eq]
    omega

/-- `ReadRune` never panics and changes nothing but the cursor. -/
theorem ReadRune_frame (r : InMemoryReader) :
    ∃ res p, r.ReadRune = some (res, { lines := r.lines, pos := p, posStack := r.posStack }) := by
  by_cases h : r.pos.Line ≤ 0 ∨ r.pos.Column ≤ 0 ∨ (r.lines.length : Int) < r.pos.Line
  · exact ⟨_, r.pos, ReadRune_eof r h⟩
  · have hL : 0 < r.pos.Line := by omega
    have hC : 0 < r.pos.Column := by omega
    obtain ⟨ln, -, hline⟩ := goIndex_of_lt r.lines (r.pos.Line - 1) (by omega) (by omega)
    by_cases hc : (ln.length : Int) < r.pos.Column
    · exact ⟨_, _, ReadRune_lineEnd r ln hL hC hline hc⟩
    · obtain ⟨c, -, hc2⟩ := goIndex_of_lt ln (r.pos.Column - 1) (by omega) (by omega)
      exact ⟨_, _, ReadRune_inLine r ln c hL hC hline hc2⟩

/-- Away from the end of the input `ReadRune` returns no error. -/
theorem ReadRune_ok (r : InMemoryReader)
    (h : ¬ (r.pos.Line ≤ 0 ∨ r.pos.Column ≤ 0 ∨ (r.lines.length : Int) < r.pos.Line)) :
    ∃ res r1, r.ReadRune = some (res, r1) ∧ res.err = none := by
  have hL : 0 < r.pos.Line := by omega
  have hC : 0 < r.pos.Column := by omega
  obtain ⟨ln, -, hln⟩ := goIndex_of_lt r.lines (r.pos.Line - 1) (by omega) (by omega)
  by_cases hc : (ln.length : Int) < r.pos.Column
  · exact ⟨_, _, ReadRune_lineEnd r ln hL hC hln hc, rfl⟩
  · obtain ⟨c, -, hc2⟩ := goIndex_of_lt ln (r.pos.Column - 1) (by omega) (by omega)
    exact ⟨_, _, ReadRune_inLine r ln c hL hC hln hc2, rfl⟩

/-- Any number of `ReadRune` calls runs without panic and changes nothing but
the cursor. -/
theorem readTrace_frame (n : Nat) (r : InMemoryReader) :
    ∃ tr p, r.readTrace n = some (tr, { lines := r.lines, pos := p, posStack := r.posStack }) := by
  induction n generalizing r with
  | zero => exact ⟨[], r.pos, rfl⟩
  | succ n ih =>
    obtain ⟨res, p, h⟩ := ReadRune_frame r
    obtain ⟨tr, q, h2⟩ := ih { lines := r.lines, pos := p, posStack := r.posStack }
    refine ⟨(r.CurrentPosition, res) :: tr, q, ?_⟩
    simp only [readTrace, h, h2]

theorem Rollback_push (r : InMemoryReader) (s : List TextPosition) (p : TextPosition)
    (h : r.posStack = s ++ [p]) :
    r.Rollback = (none, { lines := r.lines, pos := p, posStack := s }) := by
  unfold Rollback
  rw [h]
  simp

theorem Commit_push (r : InMemoryReader) (s : List TextPosition) (p : TextPosition)
    (h : r.posStack = s ++ [p]) :
    r.Commit = (none, { lines := r.lines, pos := r.pos, posStack := s }) := by
  unfold Commit
  rw [h]
  simp

theorem Rollback_empty (r : InMemoryReader) (h : r.posStack = []) :
    r.Rollback = (some Error.noActiveTransaction, r) := by
  unfold Rollback
  rw [h]
  rfl

theorem Commit_empty (r : InMemoryReader) (h : r.posStack = []) :
    r.Commit = (some Error.noActiveTransaction, r) := by
  unfold Commit
  rw [h]
  rfl

end InMemoryReader

theorem stack_cases (s : List TextPosition) : s = [] ∨ ∃ t p, s = t ++ [p] := by
  rcases List.eq_nil_or_concat s with h | ⟨t, p, h⟩
  · exact Or.inl h
  · exact Or.inr ⟨t, p, by simpa using h⟩


/-! ## The contract of the reader's methods -/

/-- C1: for a reader whose cursor is valid and whose line is at most the
number of stored lines, `ReadRune` succeeds; the current line exists, and if
the column is at most its length the result is the rune of index `Column-1`
of the line and the cursor moves to `(Line, Column+1)`, otherwise the result
is the line break and the cursor moves to `(Line+1, 1)`.  The stored lines
and the transaction stack are the same in both cases. -/
theorem ReadRune_contract (r : InMemoryReader) (hv : r.pos.IsValid = true)
    (hl : r.pos.Line ≤ (r.lines.length : Int)) :
    ∃ ln, r.lines[(r.pos.Line - 1).toNat]? = some ln ∧
      (r.pos.Column ≤ (ln.length : Int) →
        ∃ c, ln[(r.pos.Column - 1).toNat]? = some c ∧
          r.ReadRune = some (⟨c, RuneLen c, none⟩,
            { lines := r.lines, pos := ⟨r.pos.Line, r.pos.Column + 1⟩,
              posStack := r.posStack })) ∧
      (¬ r.pos.Column ≤ (ln.length : Int) →
        r.ReadRune = some (⟨10, 1, none⟩,
          { lines := r.lines, pos := ⟨r.pos.Line + 1, 1⟩, posStack := r.posStack })) := by
  obtain ⟨hL, hC⟩ := (IsValid_iff r.pos).1 hv
  obtain ⟨ln, -, hln⟩ := goIndex_of_lt r.lines (r.pos.Line - 1) (by omega) (by omega)
  refine ⟨ln, hln, ?_, ?_⟩
  · intro hc
    obtain ⟨c, -, hc2⟩ := goIndex_of_lt ln (r.pos.Column - 1) (by omega) (by omega)
    exact ⟨c, hc2, InMemoryReader.ReadRune_inLine r ln c hL hC hln hc2⟩
  · intro hc
    exact InMemoryReader.ReadRune_lineEnd r ln hL hC hln (by omega)

/-- Witness of C1 on the reader over the lines `ab`, `c` with the cursor at
`(1, 2)`. -/
theorem ReadRune_contract_witness :
    ∃ ln, ([[97, 98], [99]] : List (List Rune))[((1 : Int) - 1).toNat]? = some ln ∧
      ((2 : Int) ≤ (ln.length : Int) →
        ∃ c, ln[((2 : Int) - 1).toNat]? = some c ∧
          InMemoryReader.ReadRune ⟨[[97, 98], [99]], ⟨1, 2⟩, []⟩ = some (⟨c, RuneLen c, none⟩,
            { lines := [[97, 98], [99]], pos := ⟨1, 2 + 1⟩, posStack := [] })) ∧
      (¬ (2 : Int) ≤ (ln.length : Int) →
        InMemoryReader.ReadRune ⟨[[97, 98], [99]], ⟨1, 2⟩, []⟩ = some (⟨10, 1, none⟩,
          { lines := [[97, 98], [99]], pos := ⟨1 + 1, 1⟩, posStack := [] })) :=
  ReadRune_contract ⟨[[97, 98], [99]], ⟨1, 2⟩, []⟩ (by decide) (by decide)

/-- C2: `ReadRune` fails exactly when the cursor is invalid (`Line ≤ 0` or
`Column ≤ 0`) or its line is greater than the number of stored lines.  The
failure is `(0, 0, io.EOF)` and returns the reader unchanged, so any number of
further calls fail in the same way at the same position; in every other state
the call returns without error. -/
theorem ReadRune_fails_iff (r : InMemoryReader) :
    ((∃ res r1, r.ReadRune = some (res, r1) ∧ res.err ≠ none) ↔
      (r.pos.Line ≤ 0 ∨ r.pos.Column ≤ 0 ∨ (r.lines.length : Int) < r.pos.Line)) ∧
    (∀ res r1, r.ReadRune = some (res, r1) → res.err ≠ none →
      res = ⟨0, 0, some Error.EOF⟩ ∧ r1 = r ∧
      ∀ n, r1.readTrace n = some (List.replicate n (r.pos, ⟨0, 0, some Error.EOF⟩), r)) := by
  have key : ∀ res r1, r.ReadRune = some (res, r1) → res.err ≠ none →
      (r.pos.Line ≤ 0 ∨ r.pos.Column ≤ 0 ∨ (r.lines.length : Int) < r.pos.Line) := by
    intro res r1 h herr
    by_contra hbad
    obtain ⟨res2, r2, h2, hok⟩ := InMemoryReader.ReadRune_ok r hbad
    rw [h2] at h
    cases h
    exact herr hok
  refine ⟨⟨fun ⟨res, r1, h, herr⟩ => key res r1 h herr, fun hbad => ?_⟩, ?_⟩
  · exact ⟨_, r, InMemoryReader.ReadRune_eof r hbad, by simp⟩
  · intro res r1 h herr
    have hbad := key res r1 h herr
    have heof := InMemoryReader.ReadRune_eof r hbad
    rw [heof] at h
    cases h
    refine ⟨rfl, rfl, ?_⟩
    intro n
    induction n with
    | zero => rfl
    | succ n ih => simp only [InMemoryReader.readTrace, heof, ih, List.replicate_succ,
        InMemoryReader.CurrentPosition]

/-- C3: `Rollback` returns an error exactly when the transaction stack is
empty.  On a stack `s ++ [p]` it returns no error, removes the top `p`, sets
the cursor to `p` and leaves `s`; on an empty stack the reader is unchanged. -/
theorem Rollback_contract (r : InMemoryReader) :
    ((r.Rollback).1 ≠ none ↔ r.posStack = []) ∧
    (∀ s p, r.posStack = s ++ [p] →
      r.Rollback = (none, { lines := r.lines, pos := p, posStack := s })) ∧
    (r.posStack = [] → r.Rollback = (some Error.noActiveTransaction, r)) := by
  refine ⟨?_, fun s p h => InMemoryReader.Rollback_push r s p h,
    fun h => InMemoryReader.Rollback_empty r h⟩
  rcases stack_cases r.posStack with h | ⟨t, p, h⟩
  · simp [InMemoryReader.Rollback_empty r h, h]
  · simp [InMemoryReader.Rollback_push r t p h, h]

/-- C4: `Commit` returns an error exactly when the transaction stack is
empty.  On a stack `s ++ [p]` it returns no error, removes the top `p` and
leaves the cursor and `s`; on an empty stack the reader is unchanged. -/
theorem Commit_contract (r : InMemoryReader) :
    ((r.Commit).1 ≠ none ↔ r.posStack = []) ∧
    (∀ s p, r.posStack = s ++ [p] →
      r.Commit = (none, { lines := r.lines, pos := r.pos, posStack := s })) ∧
    (r.posStack = [] → r.Commit = (some Error.noActiveTransaction, r)) := by
  refine ⟨?_, fun s p h => InMemoryReader.Commit_push r s p h,
    fun h => InMemoryReader.Commit_empty r h⟩
  rcases stack_cases r.posStack with h | ⟨t, p, h⟩
  · simp [InMemoryReader.Commit_empty r h, h]
  · simp [InMemoryReader.Commit_push r t p h, h]

/-- C5: `Begin` puts the current cursor on top of the transaction stack: the
depth grows by one, the top is the cursor, the entries below are the old
stack, and the cursor and the lines are unchanged.  `CurrentPosition` is the
cursor; it returns no state, so it changes none. -/
theorem Begin_contract (r : InMemoryReader) :
    r.Begin = { lines := r.lines, pos := r.pos, posStack := r.posStack ++ [r.pos] } ∧
    r.Begin.posStack.length = r.posStack.length + 1 ∧
    r.Begin.posStack.getLast? = some r.pos ∧
    r.Begin.posStack.dropLast = r.posStack ∧
    r.Begin.pos = r.pos ∧ r.Begin.lines = r.lines ∧
    r.CurrentPosition = r.pos := by
  simp [InMemoryReader.Begin, InMemoryReader.CurrentPosition]

/-- C6: backtracking round trip.  From any reader, `Begin`, then `k` calls of
`ReadRune` (which all return, with or without error), then `Rollback`
succeeds and gives back exactly the reader before `Begin`. -/
theorem Begin_reads_Rollback (r : InMemoryReader) (k : Nat) :
    ∃ tr r1, r.Begin.readTrace k = some (tr, r1) ∧ r1.Rollback = (none, r) := by
  obtain ⟨tr, p, h⟩ := InMemoryReader.readTrace_frame k r.Begin
  exact ⟨tr, _, h, InMemoryReader.Rollback_push _ r.posStack r.pos rfl⟩


/-! ## Reading a whole text -/

namespace InMemoryReader

theorem readTrace_add (a b : Nat) (r r1 r2 : InMemoryReader)
    (t1 t2 : List (TextPosition × ReadResult))
    (h1 : r.readTrace a = some (t1, r1)) (h2 : r1.readTrace b = some (t2, r2)) :
    r.readTrace (a + b) = some (t1 ++ t2, r2) := by
  induction a generalizing r t1 with
  | zero =>
    simp only [readTrace, Option.some.injEq, Prod.mk.injEq] at h1
    obtain ⟨rfl, rfl⟩ := h1
    simpa using h2
  | succ a ih =>
    rw [Nat.add_right_comm]
    simp only [readTrace] at h1 ⊢
    cases hr : r.ReadRune with
    | none => simp [hr] at h1
    | some x =>
      obtain ⟨res, r3⟩ := x
      rw [hr] at h1
      simp only at h1 ⊢
      cases hr3 : r3.readTrace a with
      | none => simp [hr3] at h1
      | some y =>
        obtain ⟨t3, r4⟩ := y
        rw [hr3] at h1
        simp only [Option.some.injEq, Prod.mk.injEq] at h1
        obtain ⟨rfl, rfl⟩ := h1
        rw [ih r3 t3 hr3]
        simp

/-- Reading the rest of a line and its line break. -/
theorem readTrace_line (lines : List (List Rune)) (stack : List TextPosition) (n : Nat)
    (pre suf : List Rune) (hline : lines[n]? = some (pre ++ suf)) :
    readTrace (suf.length + 1) ⟨lines, ⟨(n : Int) + 1, (pre.length : Int) + 1⟩, stack⟩ =
      some (lineReads ((n : Int) + 1) ((pre.length : Int) + 1) suf,
        ⟨lines, ⟨(n : Int) + 2, 1⟩, stack⟩) := by
  induction suf generalizing pre with
  | nil =>
    have h := ReadRune_lineEnd ⟨lines, ⟨(n : Int) + 1, (pre.length : Int) + 1⟩, stack⟩
      (pre ++ []) (by show (0 : Int) < (n : Int) + 1; omega)
      (by show (0 : Int) < (pre.length : Int) + 1; omega) (by simpa using hline) (by simp)
    simp only at h
    have e : (n : Int) + 1 + 1 = (n : Int) + 2 := by omega
    rw [e] at h
    simp only [List.length_nil, Nat.zero_add, readTrace, h, lineReads, CurrentPosition, readOk]
    rfl
  | cons c cs ih =>
    have hc : (pre ++ c :: cs)[(((pre.length : Int) + 1) - 1).toNat]? = some c := by
      have : (((pre.length : Int) + 1) - 1).toNat = pre.length := by omega
      rw [this, List.getElem?_append_right (Nat.le_refl _), Nat.sub_self]
      simp
    have h := ReadRune_inLine ⟨lines, ⟨(n : Int) + 1, (pre.length : Int) + 1⟩, stack⟩
      (pre ++ c :: cs) c (by show (0 : Int) < (n : Int) + 1; omega)
      (by show (0 : Int) < (pre.length : Int) + 1; omega) (by simpa using hline) hc
    simp only at h
    have ih2 := ih (pre ++ [c]) (by simpa using hline)
    simp only [List.length_append, List.length_singleton, Nat.cast_add, Nat.cast_one] at ih2
    rw [List.length_cons, readTrace, h]
    simp only [ih2, lineReads, CurrentPosition, readOk]

/-- Reading all the lines from the start of line `done.length + 1` to the end
of the input, and the failing read after them. -/
theorem readTrace_lines (stack : List TextPosition) (done rest : List (List Rune)) :
    readTrace ((rest.map (fun l => l.length + 1)).sum + 1)
        ⟨done ++ rest, ⟨(done.length : Int) + 1, 1⟩, stack⟩ =
      some (linesReads ((done.length : Int) + 1) rest ++
          [(⟨((done ++ rest).length : Int) + 1, 1⟩, ⟨0, 0, some Error.EOF⟩)],
        ⟨done ++ rest, ⟨((done ++ rest).length : Int) + 1, 1⟩, stack⟩) := by
  induction rest generalizing done with
  | nil =>
    have h := ReadRune_eof ⟨done, ⟨(done.length : Int) + 1, 1⟩, stack⟩
      (Or.inr (Or.inr (by simp)))
    simp only [List.append_nil, List.map_nil, List.sum_nil, Nat.zero_add, readTrace, h,
      linesReads, CurrentPosition, List.nil_append]
  | cons l ls ih =>
    have h1 := readTrace_line (done ++ l :: ls) stack done.length [] l
      (by rw [List.getElem?_append_right (Nat.le_refl _), Nat.sub_self]; simp)
    have h2 := ih (done ++ [l])
    simp only [List.append_assoc, List.singleton_append, List.length_append,
      List.length_singleton, Nat.cast_add, Nat.cast_one] at h2
    simp only [List.length_nil, Nat.cast_zero, Int.zero_add] at h1
    have e : (done.length : Int) + 2 = (done.length : Int) + 1 + 1 := by omega
    rw [e] at h1
    have h3 := readTrace_add _ _ _ _ _ _ _ h1 h2
    simp only [List.map_cons, List.sum_cons, linesReads, List.append_assoc]
    have e2 : l.length + 1 + (ls.map (fun l => l.length + 1)).sum + 1
        = l.length + 1 + ((ls.map (fun l => l.length + 1)).sum + 1) := by omega
    rw [e2, h3]
    simp [List.length_append, Nat.cast_add]

end InMemoryReader

/-! ## The positions of the position model on a text made of lines -/

/-- The position model inside a line: after a prefix that ends where a line
starts, the character of index `j` of the line is at column `j + 1` of the
line whose number is one plus the line feeds of the prefix. -/
theorem positionAt_in_line (pre l rest : List Char) (j : Nat)
    (hpre : pre.reverse.takeWhile (fun c => c != '\n') = [])
    (hl : ∀ c ∈ l, c ≠ '\n') (hj : j ≤ l.length) :
    positionAt (pre ++ (l ++ rest)) (pre.length + j) =
      ⟨1 + ((pre.count '\n' : Nat) : Int), 1 + (j : Int)⟩ := by
  have htake : (pre ++ (l ++ rest)).take (pre.length + j) = pre ++ l.take j := by
    rw [List.take_append, List.take_append_of_le_length hj]
  have hmem : ∀ c ∈ l.take j, c ≠ '\n' := fun c hc => hl c (List.mem_of_mem_take hc)
  have hcount : (l.take j).count '\n' = 0 :=
    List.count_eq_zero_of_not_mem (fun h => hmem _ h rfl)
  have hwhile : ((pre ++ l.take j).reverse.takeWhile (fun c => c != '\n')).length = j := by
    rw [List.reverse_append, List.takeWhile_append_of_pos, hpre]
    · simp [List.length_take, hj]
    · intro c hc
      have := hmem c (List.mem_reverse.1 hc)
      simpa using this
  unfold positionAt
  rw [htake, hwhile, List.count_append, hcount]
  simp

theorem expectedReadsFrom_append (text : List Char) (i : Nat) (a b : List Char) :
    expectedReadsFrom text i (a ++ b) =
      expectedReadsFrom text i a ++ expectedReadsFrom text (i + a.length) b := by
  induction a generalizing i with
  | nil => simp [expectedReadsFrom]
  | cons c cs ih =>
    have e : i + 1 + cs.length = i + (cs.length + 1) := by omega
    rw [List.cons_append, expectedReadsFrom, expectedReadsFrom, ih, List.length_cons, e,
      List.cons_append]

/-- The expected reads over the rest of a line and its line feed. -/
theorem expectedReadsFrom_line (text : List Char) (n : Int) (i j : Nat) (suf : List Char)
    (hpos : ∀ k, k ≤ suf.length → positionAt text (i + k) = ⟨n, 1 + ((j + k : Nat) : Int)⟩) :
    expectedReadsFrom text i (suf ++ ['\n']) =
      lineReads n ((j : Int) + 1) (suf.map (fun c => (c.toNat : Int))) := by
  induction suf generalizing i j with
  | nil =>
    have h := hpos 0 (Nat.le_refl _)
    simp only [Nat.add_zero] at h
    simp only [List.nil_append, expectedReadsFrom, h, List.map_nil, lineReads]
    have e : 1 + (j : Int) = (j : Int) + 1 := by omega
    rw [e]
    rfl
  | cons c cs ih =>
    have h := hpos 0 (Nat.zero_le _)
    simp only [Nat.add_zero] at h
    have ih2 := ih (i + 1) (j + 1) (fun k hk => by
      have := hpos (k + 1) (by simp only [List.length_cons]; omega)
      rw [show i + 1 + k = i + (k + 1) by omega, show j + 1 + k = j + (k + 1) by omega]
      exact this)
    have e : 1 + (j : Int) = (j : Int) + 1 := by omega
    have e2 : ((j + 1 : Nat) : Int) = (j : Int) + 1 := by omega
    rw [e2] at ih2
    rw [List.cons_append, expectedReadsFrom, h, List.map_cons, lineReads, ih2, e]

/-- On a text made of lines the expected reads are the reads line by line. -/
theorem expectedReadsFrom_lines (pre : List Char) (ls : List (List Char))
    (hpre : pre.reverse.takeWhile (fun c => c != '\n') = [])
    (hls : ∀ l ∈ ls, ∀ c ∈ l, c ≠ '\n') :
    expectedReadsFrom (pre ++ textOfLines ls) pre.length (textOfLines ls) =
      linesReads (1 + ((pre.count '\n' : Nat) : Int))
        (ls.map (fun l => l.map (fun c => (c.toNat : Int)))) := by
  induction ls generalizing pre with
  | nil => simp [textOfLines, expectedReadsFrom, linesReads]
  | cons l ls ih =>
    have htext : textOfLines (l :: ls) = (l ++ ['\n']) ++ textOfLines ls := by
      simp [textOfLines]
    have hl : ∀ c ∈ l, c ≠ '\n' := hls l (List.mem_cons_self _ _)
    have h1 := expectedReadsFrom_line (pre ++ textOfLines (l :: ls))
      (1 + ((pre.count '\n' : Nat) : Int)) pre.length 0 l (fun k hk => by
        rw [htext, List.append_assoc, positionAt_in_line pre l _ k hpre hl hk]
        simp)
    have hpre2 : (pre ++ (l ++ ['\n'])).reverse.takeWhile (fun c => c != '\n') = [] := by
      simp [List.reverse_append, List.takeWhile_cons]
    have h2 := ih (pre ++ (l ++ ['\n'])) hpre2 (fun l2 h => hls l2 (List.mem_cons_of_mem _ h))
    have hcount : (pre ++ (l ++ ['\n'])).count '\n' = pre.count '\n' + 1 := by
      rw [List.count_append, List.count_append,
        List.count_eq_zero_of_not_mem (fun h => hl _ h rfl)]
      simp
    rw [hcount] at h2
    rw [htext, expectedReadsFrom_append, ← htext, h1, List.map_cons, linesReads]
    congr 1
    rw [htext, ← List.append_assoc]
    rw [List.append_assoc pre] at h2 ⊢
    simp only [List.length_append] at h2
    rw [List.length_append]
    rw [h2]
    congr 1


/-! ## UTF-8 -/

theorem UInt8_toNat_ofNat (n : Nat) (h : n < 256) : (UInt8.ofNat n).toNat = n := by
  show n % 256 = n
  exact Nat.mod_eq_of_lt h

theorem Char_toNat_valid (c : Char) :
    c.toNat < 0xD800 ∨ (0xDFFF < c.toNat ∧ c.toNat < 0x110000) := c.valid

theorem utf8EncodeRune_lt (c : Nat) (hc : c < 0x110000) : ∀ b ∈ utf8EncodeRune c, b < 256 := by
  intro b hb
  unfold utf8EncodeRune at hb
  split_ifs at hb <;> simp only [List.mem_cons, List.mem_singleton, List.not_mem_nil, or_false] at hb <;> omega

theorem utf8EncodeRune_ne (c : Nat) (x : Nat) (hx : x < 0x80) (hc : c ≠ x) :
    ∀ b ∈ utf8EncodeRune c, b ≠ x := by
  intro b hb
  unfold utf8EncodeRune at hb
  split_ifs at hb <;> simp only [List.mem_cons, List.mem_singleton, List.not_mem_nil, or_false] at hb <;> omega

theorem utf8EncodeRune_length (c : Nat) : 1 ≤ (utf8EncodeRune c).length := by
  unfold utf8EncodeRune
  split_ifs <;> simp

/-- Decoding inverts encoding on a Unicode scalar value. -/
theorem decodeRune_utf8EncodeRune (c : Nat)
    (hc : c < 0xD800 ∨ (0xDFFF < c ∧ c < 0x110000)) (rest : List Nat) :
    decodeRune (utf8EncodeRune c ++ rest) = ((c : Int), (utf8EncodeRune c).length) := by
  unfold utf8EncodeRune
  split_ifs with h1 h2 h3
  · simp only [List.singleton_append, decodeRune, List.length_singleton]
    rw [if_pos (by omega)]
  · simp only [List.cons_append, List.nil_append, decodeRune]
    rw [if_neg (by omega), if_neg (by omega), if_pos (by omega), if_pos (by omega)]
    simp only [List.length_cons, List.length_nil, Prod.mk.injEq, and_true]
    apply congrArg
    omega
  · simp only [List.cons_append, List.nil_append, decodeRune]
    rw [if_neg (by omega), if_neg (by omega), if_neg (by omega), if_pos (by omega)]
    rw [if_pos (by split_ifs <;> omega), if_pos (by omega)]
    simp only [List.length_cons, List.length_nil, Prod.mk.injEq, and_true]
    apply congrArg
    omega
  · simp only [List.cons_append, List.nil_append, decodeRune]
    rw [if_neg (by omega), if_neg (by omega), if_neg (by omega), if_neg (by omega),
      if_pos (by omega)]
    rw [if_pos (by split_ifs <;> omega), if_pos (by omega), if_pos (by omega)]
    simp only [List.length_cons, List.length_nil, Prod.mk.injEq, and_true]
    apply congrArg
    omega


theorem Char_eq_of_toNat (c d : Char) (h : c.toNat = d.toNat) : c = d := by
  rw [← Char.ofNat_toNat c, ← Char.ofNat_toNat d, h]

theorem decodeRunes_step (fuel : Nat) (bs : List Nat) (h : bs ≠ []) :
    decodeRunes (fuel + 1) bs =
      (decodeRune bs).1 :: decodeRunes fuel (bs.drop (decodeRune bs).2) := by
  cases bs with
  | nil => exact absurd rfl h
  | cons b t => rfl

/-- Decoding the encoding of a sequence of characters gives back the
characters, with any fuel that is at least their number. -/
theorem decodeRunes_encode (l : List Char) (fuel : Nat) (h : l.length ≤ fuel) :
    decodeRunes fuel (l.flatMap (fun c => utf8EncodeRune c.toNat)) =
      l.map (fun c => (c.toNat : Int)) := by
  induction l generalizing fuel with
  | nil => cases fuel <;> rfl
  | cons c cs ih =>
    obtain ⟨f, rfl⟩ : ∃ f, fuel = f + 1 := ⟨fuel - 1, by simp only [List.length_cons] at h; omega⟩
    have hne : utf8EncodeRune c.toNat ++ cs.flatMap (fun c => utf8EncodeRune c.toNat) ≠ [] := by
      intro h0
      have := congrArg List.length h0
      have := utf8EncodeRune_length c.toNat
      simp only [List.length_append, List.length_nil] at *
      omega
    rw [List.flatMap_cons, decodeRunes_step _ _ hne,
      decodeRune_utf8EncodeRune c.toNat (Char_toNat_valid c)]
    simp only [List.drop_left, List.map_cons]
    rw [ih f (by simp only [List.length_cons] at h; omega)]

theorem map_toNat_ofNat (xs : List Nat) (h : ∀ x ∈ xs, x < 256) :
    (xs.map UInt8.ofNat).map UInt8.toNat = xs := by
  induction xs with
  | nil => rfl
  | cons x xs ih =>
    simp only [List.map_cons, List.cons.injEq]
    exact ⟨UInt8_toNat_ofNat x (h x (List.mem_cons_self _ _)),
      ih (fun y hy => h y (List.mem_cons_of_mem _ hy))⟩

theorem length_le_flatMap_encode (l : List Char) :
    l.length ≤ (l.flatMap (fun c => utf8EncodeRune c.toNat)).length := by
  induction l with
  | nil => simp
  | cons c cs ih =>
    have := utf8EncodeRune_length c.toNat
    simp only [List.flatMap_cons, List.length_append, List.length_cons]
    omega

/-- The runes of a valid UTF-8 text are its characters. -/
theorem toRunes_utf8Encode (l : List Char) :
    toRunes (utf8Encode l) = l.map (fun c => (c.toNat : Int)) := by
  unfold toRunes utf8Encode
  rw [map_toNat_ofNat, List.length_map]
  · exact decodeRunes_encode l _ (length_le_flatMap_encode l)
  · intro x hx
    obtain ⟨c, -, hc⟩ := List.mem_flatMap.1 hx
    have hv := Char_toNat_valid c
    exact utf8EncodeRune_lt c.toNat (by omega) x hc

/-- The bytes of the encoding of characters other than the ASCII character
`x` are all different from `x`. -/
theorem utf8Encode_ne (l : List Char) (x : Nat) (hx : x < 0x80)
    (hl : ∀ c ∈ l, c.toNat ≠ x) : ∀ b ∈ utf8Encode l, b ≠ UInt8.ofNat x := by
  intro b hb heq
  unfold utf8Encode at hb
  obtain ⟨n, hn, rfl⟩ := List.mem_map.1 hb
  obtain ⟨c, hc, hnc⟩ := List.mem_flatMap.1 hn
  have hv := Char_toNat_valid c
  have h1 := utf8EncodeRune_lt c.toNat (by omega) n hnc
  have h2 := utf8EncodeRune_ne c.toNat x hx (hl c hc) n hnc
  have h3 := congrArg UInt8.toNat heq
  rw [UInt8_toNat_ofNat n h1, UInt8_toNat_ofNat x (by omega)] at h3
  exact h2 h3

theorem utf8Encode_append (a b : List Char) :
    utf8Encode (a ++ b) = utf8Encode a ++ utf8Encode b := by
  simp [utf8Encode, List.flatMap_append]

/-! ## The line scanner -/

theorem dropCR_of_no_CR (l : List UInt8) (h : ∀ b ∈ l, b ≠ 13) : dropCR l = l := by
  unfold dropCR
  rw [if_neg]
  intro h13
  obtain ⟨ys, hys⟩ := List.getLast?_eq_some_iff.1 h13
  exact h 13 (by rw [hys]; simp) rfl

/-- The scanner on a line that ends with a line feed and fits the buffer. -/
theorem scanLinesFrom_line (cur l rest : List UInt8) (hl : ∀ b ∈ l, b ≠ 10)
    (hlen : (cur ++ l).length < MaxScanTokenSize) :
    scanLinesFrom cur (l ++ 10 :: rest) = dropCR (cur ++ l) :: scanLinesFrom [] rest := by
  induction l generalizing cur with
  | nil =>
    rw [List.append_nil] at hlen ⊢
    rw [List.nil_append, scanLinesFrom, if_pos rfl, if_neg (by omega)]
  | cons b bs ih =>
    have hb : b ≠ 10 := hl b (List.mem_cons_self _ _)
    rw [List.cons_append, scanLinesFrom, if_neg hb, ih (cur ++ [b]) (fun x hx => hl x (List.mem_cons_of_mem _ hx))
      (by simpa using hlen)]
    simp

/-- The scanner on a text made of lines that fit the buffer and hold no line
feed and no carriage return. -/
theorem scanLines_lines (bls : List (List UInt8))
    (h : ∀ l ∈ bls, (∀ b ∈ l, b ≠ 10) ∧ (∀ b ∈ l, b ≠ 13) ∧ l.length < MaxScanTokenSize) :
    scanLines ((bls.map (fun l => l ++ [10])).flatten) = bls := by
  unfold scanLines
  induction bls with
  | nil => simp [scanLinesFrom]
  | cons l ls ih =>
    obtain ⟨h1, h2, h3⟩ := h l (List.mem_cons_self _ _)
    simp only [List.map_cons, List.flatten_cons, List.append_assoc, List.singleton_append]
    rw [scanLinesFrom_line [] l _ h1 (by simpa using h3), ih (fun x hx => h x (List.mem_cons_of_mem _ hx))]
    simp [dropCR_of_no_CR l h2]

theorem utf8Encode_textOfLines (ls : List (List Char)) :
    utf8Encode (textOfLines ls) = ((ls.map utf8Encode).map (fun l => l ++ [10])).flatten := by
  induction ls with
  | nil => rfl
  | cons l ls ih =>
    have htext : textOfLines (l :: ls) = (l ++ ['\n']) ++ textOfLines ls := by
      simp [textOfLines]
    rw [htext, utf8Encode_append, utf8Encode_append, ih]
    simp only [List.map_cons, List.flatten_cons]
    rfl

/-- The lines stored by `NewInMemoryReader` for a valid UTF-8 text made of
lines without carriage return that fit the scanner's buffer. -/
theorem NewInMemoryReader_lines (ls : List (List Char))
    (hchars : ∀ l ∈ ls, ∀ c ∈ l, c ≠ '\n' ∧ c ≠ '\r')
    (hlen : ∀ l ∈ ls, (utf8Encode l).length < MaxScanTokenSize) :
    NewInMemoryReader (utf8Encode (textOfLines ls)) =
      ⟨ls.map (fun l => l.map (fun c => (c.toNat : Int))), ⟨1, 1⟩, []⟩ := by
  unfold NewInMemoryReader
  rw [utf8Encode_textOfLines, scanLines_lines]
  · simp only [List.map_map, TextPositionStart, InMemoryReader.mk.injEq, and_true]
    apply List.map_congr_left
    intro l _
    exact toRunes_utf8Encode l
  · intro bl hbl
    obtain ⟨l, hl, rfl⟩ := List.mem_map.1 hbl
    refine ⟨?_, ?_, hlen l hl⟩
    · exact utf8Encode_ne l 10 (by omega)
        (fun c hc h0 => (hchars l hl c hc).1 (Char_eq_of_toNat c '\n' h0))
    · exact utf8Encode_ne l 13 (by omega)
        (fun c hc h0 => (hchars l hl c hc).2 (Char_eq_of_toNat c '\r' h0))


theorem textOfLines_lineStart (pre : List Char) (ls : List (List Char))
    (hpre : pre.reverse.takeWhile (fun c => c != '\n') = []) :
    (pre ++ textOfLines ls).reverse.takeWhile (fun c => c != '\n') = [] := by
  induction ls generalizing pre with
  | nil => simpa [textOfLines] using hpre
  | cons l ls ih =>
    have htext : textOfLines (l :: ls) = (l ++ ['\n']) ++ textOfLines ls := by
      simp [textOfLines]
    rw [htext, ← List.append_assoc]
    exact ih _ (by simp [List.reverse_append, List.takeWhile_cons])

theorem textOfLines_count (ls : List (List Char)) (hls : ∀ l ∈ ls, ∀ c ∈ l, c ≠ '\n') :
    (textOfLines ls).count '\n' = ls.length := by
  induction ls with
  | nil => rfl
  | cons l ls ih =>
    have htext : textOfLines (l :: ls) = (l ++ ['\n']) ++ textOfLines ls := by
      simp [textOfLines]
    rw [htext, List.count_append, List.count_append,
      List.count_eq_zero_of_not_mem (fun h => hls l (List.mem_cons_self _ _) _ h rfl),
      ih (fun l2 h => hls l2 (List.mem_cons_of_mem _ h))]
    simp only [List.length_cons]
    rw [show List.count '\n' ['\n'] = 1 from rfl]
    omega

theorem textOfLines_length (ls : List (List Char)) :
    (textOfLines ls).length = (ls.map (fun l => l.length + 1)).sum := by
  induction ls with
  | nil => rfl
  | cons l ls ih =>
    have htext : textOfLines (l :: ls) = (l ++ ['\n']) ++ textOfLines ls := by
      simp [textOfLines]
    rw [htext, List.length_append, ih]
    simp

/-- C7: position model.  For every text made of lines, each a sequence of
characters other than line feed and carriage return followed by a line feed,
encoded in UTF-8 with every line below the scanner's token limit, the reads
of `NewInMemoryReader` over the text return without panic, and they are
exactly the characters of the text in order, the character of index `i` being
read at `positionAt text i` (one plus the number of line feeds before it, one
plus the number of characters since the last line feed), followed by
`io.EOF` at the position `(number of lines + 1, 1)`, which is also
`positionAt` of the end of the text. -/
theorem position_model (ls : List (List Char))
    (hchars : ∀ l ∈ ls, ∀ c ∈ l, c ≠ '\n' ∧ c ≠ '\r')
    (hlen : ∀ l ∈ ls, (utf8Encode l).length < MaxScanTokenSize) :
    (∃ r1, (NewInMemoryReader (utf8Encode (textOfLines ls))).readTrace
        ((textOfLines ls).length + 1) =
      some (expectedReads (textOfLines ls) ++
        [(⟨(ls.length : Int) + 1, 1⟩, ⟨0, 0, some Error.EOF⟩)], r1)) ∧
    positionAt (textOfLines ls) (textOfLines ls).length = ⟨(ls.length : Int) + 1, 1⟩ := by
  have hnl : ∀ l ∈ ls, ∀ c ∈ l, c ≠ '\n' := fun l hl c hc => (hchars l hl c hc).1
  constructor
  · rw [NewInMemoryReader_lines ls hchars hlen]
    have h := InMemoryReader.readTrace_lines [] []
      (ls.map (fun l => l.map (fun c => (c.toNat : Int))))
    have h2 := expectedReadsFrom_lines [] ls rfl hnl
    simp only [List.nil_append, List.length_nil, List.count_nil, Nat.cast_zero, Int.add_zero,
      Int.zero_add, List.length_map, List.map_map] at h h2
    have h3 : (ls.map ((fun l => l.length + 1) ∘ fun l => l.map (fun c => (c.toNat : Int)))).sum
        = (textOfLines ls).length := by
      rw [textOfLines_length]
      congr 1
      apply List.map_congr_left
      intro l _
      simp
    rw [h3] at h
    unfold expectedReads
    rw [h2]
    exact ⟨_, h⟩
  · have h := positionAt_in_line (textOfLines ls) [] [] 0
      (by simpa using textOfLines_lineStart [] ls rfl) (by simp) (Nat.le_refl _)
    simp only [List.append_nil, Nat.add_zero] at h
    rw [h, textOfLines_count ls hnl]
    simp
    omega

/-- Witness of C7: the text `ab\nc\n\nd\n` of the reader's test.  Its reads
are `a`, `b`, line break, `c`, line break, line break, `d`, line break at
`(1,1)`, `(1,2)`, `(1,3)`, `(2,1)`, `(2,2)`, `(3,1)`, `(4,1)`, `(4,2)` and
then `io.EOF` at `(5,1)`. -/
theorem position_model_witness :
    ((∃ r1, (NewInMemoryReader (utf8Encode (textOfLines [['a', 'b'], ['c'], [], ['d']]))).readTrace
        ((textOfLines [['a', 'b'], ['c'], [], ['d']]).length + 1) =
      some (expectedReads (textOfLines [['a', 'b'], ['c'], [], ['d']]) ++
        [(⟨(([['a', 'b'], ['c'], [], ['d']] : List (List Char)).length : Int) + 1, 1⟩,
          ⟨0, 0, some Error.EOF⟩)], r1)) ∧
      positionAt (textOfLines [['a', 'b'], ['c'], [], ['d']])
        (textOfLines [['a', 'b'], ['c'], [], ['d']]).length =
        ⟨(([['a', 'b'], ['c'], [], ['d']] : List (List Char)).length : Int) + 1, 1⟩) ∧
    utf8Encode (textOfLines [['a', 'b'], ['c'], [], ['d']]) =
      [97, 98, 10, 99, 10, 10, 100, 10] ∧
    (NewInMemoryReader [97, 98, 10, 99, 10, 10, 100, 10]).readTrace 9 =
      some ([(⟨1, 1⟩, ⟨97, 1, none⟩), (⟨1, 2⟩, ⟨98, 1, none⟩), (⟨1, 3⟩, ⟨10, 1, none⟩),
          (⟨2, 1⟩, ⟨99, 1, none⟩), (⟨2, 2⟩, ⟨10, 1, none⟩), (⟨3, 1⟩, ⟨10, 1, none⟩),
          (⟨4, 1⟩, ⟨100, 1, none⟩), (⟨4, 2⟩, ⟨10, 1, none⟩),
          (⟨5, 1⟩, ⟨0, 0, some Error.EOF⟩)],
        ⟨[[97, 98], [99], [], [100]], ⟨5, 1⟩, []⟩) :=
  ⟨position_model [['a', 'b'], ['c'], [], ['d']] (by decide) (by decide), by decide, by decide⟩


/-! ## Sequences of calls -/

namespace InMemoryReader

theorem call_ReadRune (r : InMemoryReader) :
    ∃ e p, call Call.ReadRune r = some (e, ⟨r.lines, p, r.posStack⟩) := by
  obtain ⟨res, p, h⟩ := ReadRune_frame r
  exact ⟨res.err, p, by simp [call, h]⟩

/-- No call panics, and no call changes the stored lines. -/
theorem call_total (c : Call) (r : InMemoryReader) :
    ∃ e r1, call c r = some (e, r1) ∧ r1.lines = r.lines := by
  cases c with
  | ReadRune =>
    obtain ⟨e, p, h⟩ := call_ReadRune r
    exact ⟨e, _, h, rfl⟩
  | Begin => exact ⟨none, r.Begin, rfl, rfl⟩
  | Commit =>
    refine ⟨r.Commit.1, r.Commit.2, rfl, ?_⟩
    unfold Commit
    split <;> rfl
  | Rollback =>
    refine ⟨r.Rollback.1, r.Rollback.2, rfl, ?_⟩
    unfold Rollback
    split <;> rfl

theorem run_cons (c : Call) (cs : List Call) (r r1 r2 : InMemoryReader) (e : Option Error)
    (es : List (Option Error)) (h1 : call c r = some (e, r1)) (h2 : run cs r1 = some (es, r2)) :
    run (c :: cs) r = some (e :: es, r2) := by
  simp only [run, h1, h2]

/-- A sequence of calls never panics; it returns one error value per call and
leaves the stored lines unchanged. -/
theorem run_total (cs : List Call) (r : InMemoryReader) :
    ∃ es r1, run cs r = some (es, r1) ∧ es.length = cs.length ∧ r1.lines = r.lines := by
  induction cs generalizing r with
  | nil => exact ⟨[], r, rfl, rfl, rfl⟩
  | cons c cs ih =>
    obtain ⟨e, r1, h1, hl1⟩ := call_total c r
    obtain ⟨es, r2, h2, hlen, hl2⟩ := ih r1
    exact ⟨e :: es, r2, run_cons c cs r r1 r2 e es h1 h2, by simp [hlen], by rw [hl2, hl1]⟩

theorem run_append (a b : List Call) (r r1 r2 : InMemoryReader)
    (e1 e2 : List (Option Error))
    (h1 : run a r = some (e1, r1)) (h2 : run b r1 = some (e2, r2)) :
    run (a ++ b) r = some (e1 ++ e2, r2) := by
  induction a generalizing r e1 with
  | nil =>
    simp only [run, Option.some.injEq, Prod.mk.injEq] at h1
    obtain ⟨rfl, rfl⟩ := h1
    simpa using h2
  | cons c cs ih =>
    obtain ⟨e, r3, hc, -⟩ := call_total c r
    obtain ⟨es, r4, hr, -, -⟩ := run_total cs r3
    rw [run_cons c cs r r3 r4 e es hc hr] at h1
    simp only [Option.some.injEq, Prod.mk.injEq] at h1
    obtain ⟨rfl, rfl⟩ := h1
    exact run_cons c (cs ++ b) r r3 r2 e (es ++ e2) hc (ih r3 es hr)

/-- A well-bracketed sequence of calls above `ext.length` open transactions
resolves them all and leaves the stack below them as it was. -/
theorem run_balanced (cs : List Call) (r : InMemoryReader) (base ext : List TextPosition)
    (hb : balancedFrom ext.length cs = true) (hs : r.posStack = base ++ ext) :
    ∃ es p, run cs r = some (es, ⟨r.lines, p, base⟩) := by
  induction cs generalizing r ext with
  | nil =>
    have : ext = [] := by
      cases ext with
      | nil => rfl
      | cons x xs => simp [balancedFrom] at hb
    subst this
    exact ⟨[], r.pos, by simp only [run]; rw [← List.append_nil base, ← hs]⟩
  | cons c cs ih =>
    cases c with
    | ReadRune =>
      obtain ⟨e, p, h⟩ := call_ReadRune r
      obtain ⟨es, q, h2⟩ := ih ⟨r.lines, p, r.posStack⟩ ext (by simpa [balancedFrom] using hb) hs
      exact ⟨e :: es, q, run_cons _ _ _ _ _ _ _ h h2⟩
    | Begin =>
      obtain ⟨es, q, h2⟩ := ih r.Begin (ext ++ [r.pos])
        (by simpa [balancedFrom] using hb) (by simp [Begin, hs])
      exact ⟨none :: es, q, run_cons _ _ _ r.Begin _ _ _ rfl h2⟩
    | Commit =>
      rcases List.eq_nil_or_concat ext with h0 | ⟨t, x, h0⟩
      · subst h0
        simp [balancedFrom] at hb
      · have h0 : ext = t ++ [x] := by simpa using h0
        subst h0
        have hc := Commit_push r (base ++ t) x (by rw [hs, List.append_assoc])
        obtain ⟨es, q, h2⟩ := ih ⟨r.lines, r.pos, base ++ t⟩ t
          (by simpa [balancedFrom] using hb) rfl
        exact ⟨none :: es, q, run_cons Call.Commit cs r _ _ none es (by simp [call, hc]) h2⟩
    | Rollback =>
      rcases List.eq_nil_or_concat ext with h0 | ⟨t, x, h0⟩
      · subst h0
        simp [balancedFrom] at hb
      · have h0 : ext = t ++ [x] := by simpa using h0
        subst h0
        have hc := Rollback_push r (base ++ t) x (by rw [hs, List.append_assoc])
        obtain ⟨es, q, h2⟩ := ih ⟨r.lines, x, base ++ t⟩ t
          (by simpa [balancedFrom] using hb) rfl
        exact ⟨none :: es, q, run_cons Call.Rollback cs r _ _ none es (by simp [call, hc]) h2⟩

/-- `Begin`, a well-bracketed sequence of calls, `Rollback`: the reader is
back in the state before `Begin`. -/
theorem run_bracket (inner : List Call) (r : InMemoryReader)
    (hb : wellBracketed inner = true) :
    ∃ es r2, run inner r.Begin = some (es, r2) ∧ r2.Rollback = (none, r) ∧
      r2.posStack = r.posStack ++ [r.pos] := by
  obtain ⟨es, p, h⟩ := run_balanced inner r.Begin (r.posStack ++ [r.pos]) [] hb (by simp [Begin])
  exact ⟨es, _, h, Rollback_push _ r.posStack r.pos rfl, rfl⟩

end InMemoryReader

/-! ## Transaction stack discipline -/

namespace InMemoryReader

/-- Calls that are all `ReadRune` or `Begin` grow the stack by the number of
`Begin` calls. -/
theorem run_opening (cs : List Call) (r : InMemoryReader)
    (hcs : ∀ c ∈ cs, c = Call.ReadRune ∨ c = Call.Begin) :
    ∃ es r1, run cs r = some (es, r1) ∧
      r1.posStack.length = r.posStack.length + cs.count Call.Begin := by
  induction cs generalizing r with
  | nil => exact ⟨[], r, rfl, by simp⟩
  | cons c cs ih =>
    have hrest : ∀ c ∈ cs, c = Call.ReadRune ∨ c = Call.Begin :=
      fun x hx => hcs x (List.mem_cons_of_mem _ hx)
    rcases hcs c (List.mem_cons_self _ _) with rfl | rfl
    · obtain ⟨e, p, h⟩ := call_ReadRune r
      obtain ⟨es, r1, h1, h2⟩ := ih ⟨r.lines, p, r.posStack⟩ hrest
      exact ⟨e :: es, r1, run_cons _ _ _ _ _ _ _ h h1, by
        rw [h2, List.count_cons_of_ne (by decide)]⟩
    · obtain ⟨es, r1, h1, h2⟩ := ih r.Begin hrest
      exact ⟨none :: es, r1, run_cons _ _ _ r.Begin _ _ _ rfl h1, by
        rw [h2, List.count_cons_self]
        simp only [Begin, List.length_append, List.length_singleton]
        omega⟩

/-- Calls that are all `Commit` or `Rollback`, at most as many as the stack
is deep, all succeed and shrink the stack by their number. -/
theorem run_closing (cs : List Call) (r : InMemoryReader)
    (hcs : ∀ c ∈ cs, c = Call.Commit ∨ c = Call.Rollback)
    (hlen : cs.length ≤ r.posStack.length) :
    ∃ r1, run cs r = some (List.replicate cs.length none, r1) ∧
      r1.posStack.length + cs.length = r.posStack.length := by
  induction cs generalizing r with
  | nil => exact ⟨r, rfl, by simp⟩
  | cons c cs ih =>
    have hrest : ∀ c ∈ cs, c = Call.Commit ∨ c = Call.Rollback :=
      fun x hx => hcs x (List.mem_cons_of_mem _ hx)
    simp only [List.length_cons] at hlen
    rcases stack_cases r.posStack with h0 | ⟨t, p, h0⟩
    · rw [h0] at hlen
      simp at hlen
    · have hlen2 : cs.length ≤ t.length := by
        rw [h0] at hlen
        simp only [List.length_append, List.length_singleton] at hlen
        omega
      rcases hcs c (List.mem_cons_self _ _) with rfl | rfl
      · have hc := Commit_push r t p h0
        obtain ⟨r1, h1, h2⟩ := ih ⟨r.lines, r.pos, t⟩ hrest hlen2
        refine ⟨r1, ?_, ?_⟩
        · rw [List.length_cons, List.replicate_succ]
          exact run_cons Call.Commit cs r _ _ none _ (by simp [call, hc]) h1
        · have hl0 := congrArg List.length h0
          simp only [List.length_cons, List.length_append, List.length_nil] at h2 hl0 ⊢
          omega
      · have hc := Rollback_push r t p h0
        obtain ⟨r1, h1, h2⟩ := ih ⟨r.lines, p, t⟩ hrest hlen2
        refine ⟨r1, ?_, ?_⟩
        · rw [List.length_cons, List.replicate_succ]
          exact run_cons Call.Rollback cs r _ _ none _ (by simp [call, hc]) h1
        · have hl0 := congrArg List.length h0
          simp only [List.length_cons, List.length_append, List.length_nil] at h2 hl0 ⊢
          omega

/-- After any sequence of calls the depth of the stack is the depth before
it, plus the number of `Begin` calls, minus the number of `Commit` and
`Rollback` calls that returned no error. -/
theorem run_depth (cs : List Call) (r : InMemoryReader) :
    ∃ es r1, run cs r = some (es, r1) ∧ es.length = cs.length ∧
      r1.posStack.length + resolutions cs es = r.posStack.length + cs.count Call.Begin := by
  induction cs generalizing r with
  | nil => exact ⟨[], r, rfl, rfl, by simp [resolutions]⟩
  | cons c cs ih =>
    cases c with
    | ReadRune =>
      obtain ⟨e, p, h⟩ := call_ReadRune r
      obtain ⟨es, r1, h1, hl, h2⟩ := ih ⟨r.lines, p, r.posStack⟩
      exact ⟨e :: es, r1, run_cons _ _ _ _ _ _ _ h h1, by simp [hl], by
        rw [List.count_cons_of_ne (by decide)]
        simpa [resolutions] using h2⟩
    | Begin =>
      obtain ⟨es, r1, h1, hl, h2⟩ := ih r.Begin
      exact ⟨none :: es, r1, run_cons _ _ _ r.Begin _ _ _ rfl h1, by simp [hl], by
        rw [List.count_cons_self]
        simp only [Begin, List.length_append, List.length_singleton] at h2
        simp only [resolutions]
        omega⟩
    | Commit =>
      rcases stack_cases r.posStack with h0 | ⟨t, p, h0⟩
      · have hc := Commit_empty r h0
        obtain ⟨es, r1, h1, hl, h2⟩ := ih r
        exact ⟨some Error.noActiveTransaction :: es, r1,
          run_cons Call.Commit cs r _ _ _ es (by simp [call, hc]) h1, by simp [hl], by
          rw [List.count_cons_of_ne (by decide)]
          simpa [resolutions] using h2⟩
      · have hc := Commit_push r t p h0
        obtain ⟨es, r1, h1, hl, h2⟩ := ih ⟨r.lines, r.pos, t⟩
        exact ⟨none :: es, r1,
          run_cons Call.Commit cs r _ _ none es (by simp [call, hc]) h1, by simp [hl], by
          rw [List.count_cons_of_ne (by decide), h0]
          simp only [List.length_append, List.length_singleton, resolutions] at h2 ⊢
          omega⟩
    | Rollback =>
      rcases stack_cases r.posStack with h0 | ⟨t, p, h0⟩
      · have hc := Rollback_empty r h0
        obtain ⟨es, r1, h1, hl, h2⟩ := ih r
        exact ⟨some Error.noActiveTransaction :: es, r1,
          run_cons Call.Rollback cs r _ _ _ es (by simp [call, hc]) h1, by simp [hl], by
          rw [List.count_cons_of_ne (by decide)]
          simpa [resolutions] using h2⟩
      · have hc := Rollback_push r t p h0
        obtain ⟨es, r1, h1, hl, h2⟩ := ih ⟨r.lines, p, t⟩
        exact ⟨none :: es, r1,
          run_cons Call.Rollback cs r _ _ none es (by simp [call, hc]) h1, by simp [hl], by
          rw [List.count_cons_of_ne (by decide), h0]
          simp only [List.length_append, List.length_singleton, resolutions] at h2 ⊢
          omega⟩

end InMemoryReader

/-- C8: transaction stack discipline.  From a reader with an empty stack:
after calls that are `ReadRune` or `Begin`, `N` of them `Begin`, every
sequence of `N` calls that are `Commit` or `Rollback` returns no error at any
call and leaves the stack empty, and then both `Commit` and `Rollback` return
an error; after any sequence of calls at all, the depth of the stack is the
number of `Begin` calls minus the number of `Commit` and `Rollback` calls
that returned no error.  A reader made by `NewInMemoryReader` has an empty
stack. -/
theorem stack_discipline (r : InMemoryReader) (h0 : r.posStack = []) :
    (∀ opening closing : List Call,
      (∀ c ∈ opening, c = Call.ReadRune ∨ c = Call.Begin) →
      (∀ c ∈ closing, c = Call.Commit ∨ c = Call.Rollback) →
      closing.length = opening.count Call.Begin →
      ∃ es1 r1 r2, r.run opening = some (es1, r1) ∧
        r1.posStack.length = opening.count Call.Begin ∧
        r1.run closing = some (List.replicate closing.length none, r2) ∧
        r2.posStack = [] ∧
        (r2.Commit).1 = some Error.noActiveTransaction ∧
        (r2.Rollback).1 = some Error.noActiveTransaction) ∧
    (∀ cs : List Call, ∃ es r1, r.run cs = some (es, r1) ∧ es.length = cs.length ∧
      (r1.posStack.length : Int) = (cs.count Call.Begin : Int) - (resolutions cs es : Int)) ∧
    (∀ buf : List UInt8, (NewInMemoryReader buf).posStack = []) := by
  refine ⟨?_, ?_, fun _ => rfl⟩
  · intro opening closing hop hcl hN
    obtain ⟨es1, r1, h1, hd1⟩ := InMemoryReader.run_opening opening r hop
    rw [h0, List.length_nil, Nat.zero_add] at hd1
    obtain ⟨r2, h2, hd2⟩ := InMemoryReader.run_closing closing r1 hcl (by omega)
    have hempty : r2.posStack = [] := List.eq_nil_of_length_eq_zero (by omega)
    exact ⟨es1, r1, r2, h1, hd1, h2, hempty,
      by rw [InMemoryReader.Commit_empty r2 hempty],
      by rw [InMemoryReader.Rollback_empty r2 hempty]⟩
  · intro cs
    obtain ⟨es, r1, h1, hl, hd⟩ := InMemoryReader.run_depth cs r
    rw [h0, List.length_nil, Nat.zero_add] at hd
    exact ⟨es, r1, h1, hl, by omega⟩

/-- Witness of C8 on the reader of the transaction test, over `123456789`:
two `Begin` calls among reads, then `Commit` and `Rollback`. -/
theorem stack_discipline_witness :
    (NewInMemoryReader [49, 50, 51, 52, 53, 54, 55, 56, 57]).posStack = [] ∧
    ∃ es1 r1 r2,
      (NewInMemoryReader [49, 50, 51, 52, 53, 54, 55, 56, 57]).run
        [Call.ReadRune, Call.Begin, Call.ReadRune, Call.Begin, Call.ReadRune] = some (es1, r1) ∧
      r1.posStack.length =
        [Call.ReadRune, Call.Begin, Call.ReadRune, Call.Begin, Call.ReadRune].count Call.Begin ∧
      r1.run [Call.Commit, Call.Rollback] =
        some (List.replicate [Call.Commit, Call.Rollback].length none, r2) ∧
      r2.posStack = [] ∧
      (r2.Commit).1 = some Error.noActiveTransaction ∧
      (r2.Rollback).1 = some Error.noActiveTransaction :=
  ⟨by decide, (stack_discipline (NewInMemoryReader [49, 50, 51, 52, 53, 54, 55, 56, 57])
    (by decide)).1 [Call.ReadRune, Call.Begin, Call.ReadRune, Call.Begin, Call.ReadRune]
    [Call.Commit, Call.Rollback] (by decide) (by decide) (by decide)⟩


/-! ## Nested transactions -/

theorem balancedFrom_append (a b : List Call) (d e : Nat)
    (ha : balancedFrom d a = true) (hb : balancedFrom e b = true) :
    balancedFrom (d + e) (a ++ b) = true := by
  induction a generalizing d with
  | nil =>
    have hd : d = 0 := by simpa [balancedFrom] using ha
    subst hd
    simpa using hb
  | cons c cs ih =>
    cases c with
    | ReadRune => simpa [balancedFrom] using ih d (by simpa [balancedFrom] using ha)
    | Begin =>
      have := ih (d + 1) (by simpa [balancedFrom] using ha)
      rw [Nat.add_right_comm] at this
      simpa [balancedFrom] using this
    | Commit =>
      cases d with
      | zero => simp [balancedFrom] at ha
      | succ d =>
        have := ih d (by simpa [balancedFrom] using ha)
        rw [Nat.add_right_comm]
        simpa [balancedFrom] using this
    | Rollback =>
      cases d with
      | zero => simp [balancedFrom] at ha
      | succ d =>
        have := ih d (by simpa [balancedFrom] using ha)
        rw [Nat.add_right_comm]
        simpa [balancedFrom] using this

theorem wellBracketed_snoc_ReadRune (inner : List Call) (h : wellBracketed inner = true) :
    wellBracketed (inner ++ [Call.ReadRune]) = true :=
  balancedFrom_append inner [Call.ReadRune] 0 0 h rfl

theorem wellBracketed_nest (a b : List Call) (c : Call)
    (hc : c = Call.Commit ∨ c = Call.Rollback)
    (ha : wellBracketed a = true) (hb : wellBracketed b = true) :
    wellBracketed (a ++ Call.Begin :: (b ++ [c])) = true := by
  have h1 : balancedFrom 1 (b ++ [c]) = true :=
    balancedFrom_append b [c] 0 1 hb (by rcases hc with rfl | rfl <;> rfl)
  exact balancedFrom_append a (Call.Begin :: (b ++ [c])) 0 0 ha (by simpa [balancedFrom] using h1)

namespace InMemoryReader

theorem run_snoc (cs : List Call) (c : Call) (r r1 r2 : InMemoryReader)
    (es : List (Option Error)) (e : Option Error)
    (h1 : run cs r = some (es, r1)) (h2 : call c r1 = some (e, r2)) :
    run (cs ++ [c]) r = some (es ++ [e], r2) :=
  run_append cs [c] r r1 r2 es [e] h1 (run_cons c [] r1 r2 r2 e [] h2 rfl)

/-- After a successful `Commit` or `Rollback` the stack has lost its top; after
a failed one it is the same. -/
theorem call_closing_stack (c : Call) (hc : c = Call.Commit ∨ c = Call.Rollback)
    (r r1 : InMemoryReader) (e : Option Error) (h : call c r = some (e, r1)) :
    r1.posStack = r.posStack.dropLast := by
  rcases stack_cases r.posStack with h0 | ⟨t, p, h0⟩
  · rcases hc with rfl | rfl
    · simp only [call, Commit_empty r h0, Option.some.injEq, Prod.mk.injEq] at h
      rw [← h.2, h0]
      rfl
    · simp only [call, Rollback_empty r h0, Option.some.injEq, Prod.mk.injEq] at h
      rw [← h.2, h0]
      rfl
  · rcases hc with rfl | rfl
    · simp only [call, Commit_push r t p h0, Option.some.injEq, Prod.mk.injEq] at h
      rw [← h.2, h0]
      simp
    · simp only [call, Rollback_push r t p h0, Option.some.injEq, Prod.mk.injEq] at h
      rw [← h.2, h0]
      simp

/-- The origin of the stack after a sequence of calls: either it is an
initial part of the stack before the sequence, or the sequence ends with a
`Begin` followed by well-bracketed calls and the top of the stack is the
cursor at that `Begin`. -/
theorem run_open_begin (r : InMemoryReader) (n : Nat) :
    ∀ cs : List Call, cs.length = n → ∀ es r2, run cs r = some (es, r2) →
      (∃ rest, r.posStack = r2.posStack ++ rest) ∨
      (∃ pre inner es1 r1, cs = pre ++ Call.Begin :: inner ∧ wellBracketed inner = true ∧
        run pre r = some (es1, r1) ∧ r2.posStack = r1.posStack ++ [r1.pos]) := by
  induction n using Nat.strong_induction_on with
  | _ n ih =>
    intro cs hn es r2 hrun
    rcases List.eq_nil_or_concat cs with hnil | ⟨cs0, c, hcs⟩
    · subst hnil
      simp only [run, Option.some.injEq, Prod.mk.injEq] at hrun
      exact Or.inl ⟨[], by rw [← hrun.2]; simp⟩
    · have hcs : cs = cs0 ++ [c] := by simpa using hcs
      subst hcs
      obtain ⟨es0, r0, h0, -, -⟩ := run_total cs0 r
      obtain ⟨e, r3, hc, -⟩ := call_total c r0
      have hrun2 := run_snoc cs0 c r r0 r3 es0 e h0 hc
      rw [hrun2] at hrun
      simp only [Option.some.injEq, Prod.mk.injEq] at hrun
      obtain ⟨-, rfl⟩ := hrun
      have hlen0 : cs0.length < n := by
        rw [← hn]
        simp
      have ih0 := ih cs0.length hlen0 cs0 rfl es0 r0 h0
      cases c with
      | ReadRune =>
        obtain ⟨e2, p, hc2⟩ := call_ReadRune r0
        rw [hc2] at hc
        simp only [Option.some.injEq, Prod.mk.injEq] at hc
        have hst : r3.posStack = r0.posStack := by rw [← hc.2]
        rcases ih0 with ⟨rest, hrest⟩ | ⟨pre, inner, es1, r1, hdec, hwb, hpre, htop⟩
        · exact Or.inl ⟨rest, by rw [hst]; exact hrest⟩
        · exact Or.inr ⟨pre, inner ++ [Call.ReadRune], es1, r1, by rw [hdec]; simp,
            wellBracketed_snoc_ReadRune inner hwb, hpre, by rw [hst]; exact htop⟩
      | Begin =>
        simp only [call, Option.some.injEq, Prod.mk.injEq] at hc
        exact Or.inr ⟨cs0, [], es0, r0, rfl, rfl, h0, by rw [← hc.2]; rfl⟩
      | Commit =>
        have hst := call_closing_stack Call.Commit (Or.inl rfl) r0 r3 e hc
        rcases ih0 with ⟨rest, hrest⟩ | ⟨pre, inner, es1, r1, hdec, hwb, hpre, htop⟩
        · rcases stack_cases r0.posStack with h00 | ⟨t, p, h00⟩
          · exact Or.inl ⟨rest, by rw [hst, h00]; rw [h00] at hrest; exact hrest⟩
          · exact Or.inl ⟨p :: rest, by rw [hst, hrest, h00]; simp⟩
        · have hst2 : r3.posStack = r1.posStack := by rw [hst, htop]; simp
          have hlenp : pre.length < n := by
            rw [← hn, hdec]
            simp
          rcases ih pre.length hlenp pre rfl es1 r1 hpre with
            ⟨rest, hrest⟩ | ⟨pre2, inner2, es2, r4, hdec2, hwb2, hpre2, htop2⟩
          · exact Or.inl ⟨rest, by rw [hst2]; exact hrest⟩
          · exact Or.inr ⟨pre2, inner2 ++ Call.Begin :: (inner ++ [Call.Commit]), es2, r4,
              by rw [hdec, hdec2]; simp,
              wellBracketed_nest inner2 inner Call.Commit (Or.inl rfl) hwb2 hwb, hpre2,
              by rw [hst2]; exact htop2⟩
      | Rollback =>
        have hst := call_closing_stack Call.Rollback (Or.inr rfl) r0 r3 e hc
        rcases ih0 with ⟨rest, hrest⟩ | ⟨pre, inner, es1, r1, hdec, hwb, hpre, htop⟩
        · rcases stack_cases r0.posStack with h00 | ⟨t, p, h00⟩
          · exact Or.inl ⟨rest, by rw [hst, h00]; rw [h00] at hrest; exact hrest⟩
          · exact Or.inl ⟨p :: rest, by rw [hst, hrest, h00]; simp⟩
        · have hst2 : r3.posStack = r1.posStack := by rw [hst, htop]; simp
          have hlenp : pre.length < n := by
            rw [← hn, hdec]
            simp
          rcases ih pre.length hlenp pre rfl es1 r1 hpre with
            ⟨rest, hrest⟩ | ⟨pre2, inner2, es2, r4, hdec2, hwb2, hpre2, htop2⟩
          · exact Or.inl ⟨rest, by rw [hst2]; exact hrest⟩
          · exact Or.inr ⟨pre2, inner2 ++ Call.Begin :: (inner ++ [Call.Rollback]), es2, r4,
              by rw [hdec, hdec2]; simp,
              wellBracketed_nest inner2 inner Call.Rollback (Or.inr rfl) hwb2 hwb, hpre2,
              by rw [hst2]; exact htop2⟩

end InMemoryReader

/-- C9: nested transactions are last-in first-out and isolated.  From any
reader and after any calls `pre`, a `Begin`, then any well-bracketed calls
`inner` (reads, and inner `Begin`s each resolved by a `Commit` or a
`Rollback`), then `Rollback`: the `Begin` and the `Rollback` return no error
and the reader is back in the state it had at the `Begin`, with the cursor it
had there.  Conversely, whenever a `Rollback` at the end of a sequence of
calls returns no error, either the sequence is of that form, the `Begin`
being the most recent one not yet resolved, and the cursor and the stack are
those at that `Begin`; or no `Begin` of the sequence is unresolved and the
`Rollback` restores an entry the stack held before the sequence. -/
theorem nested_rollback (r : InMemoryReader) :
    (∀ pre inner : List Call, wellBracketed inner = true →
      ∃ es1 r1 es2, r.run pre = some (es1, r1) ∧
        r.run (pre ++ Call.Begin :: (inner ++ [Call.Rollback])) =
          some (es1 ++ none :: (es2 ++ [none]), r1)) ∧
    (∀ cs es r2, r.run (cs ++ [Call.Rollback]) = some (es, r2) → es.getLast? = some none →
      (∃ pre inner es1 r1, cs = pre ++ Call.Begin :: inner ∧ wellBracketed inner = true ∧
        r.run pre = some (es1, r1) ∧ r2.pos = r1.pos ∧ r2.posStack = r1.posStack) ∨
      (∃ rest, r.posStack = r2.posStack ++ r2.pos :: rest)) := by
  constructor
  · intro pre inner hwb
    obtain ⟨es1, r1, h1, -, -⟩ := InMemoryReader.run_total pre r
    obtain ⟨es2, r2, h2, h3, -⟩ := InMemoryReader.run_bracket inner r1 hwb
    have h4 := InMemoryReader.run_snoc inner Call.Rollback r1.Begin r2 r1 es2 none h2
      (by simp [InMemoryReader.call, h3])
    have h5 := InMemoryReader.run_cons Call.Begin _ r1 r1.Begin r1 none _ rfl h4
    exact ⟨es1, r1, es2, h1, InMemoryReader.run_append _ _ r r1 r1 _ _ h1 h5⟩
  · intro cs es r2 hrun hok
    obtain ⟨es0, r0, h0, -, -⟩ := InMemoryReader.run_total cs r
    have hrun2 := InMemoryReader.run_snoc cs Call.Rollback r r0 r0.Rollback.2 es0
      r0.Rollback.1 h0 rfl
    rw [hrun2] at hrun
    simp only [Option.some.injEq, Prod.mk.injEq] at hrun
    obtain ⟨rfl, rfl⟩ := hrun
    have hnone : r0.Rollback.1 = none := by simpa using hok
    have hne : r0.posStack ≠ [] := by
      intro hempty
      rw [InMemoryReader.Rollback_empty r0 hempty] at hnone
      simp at hnone
    rcases stack_cases r0.posStack with h00 | ⟨t, p, h00⟩
    · exact absurd h00 hne
    · have hrb := InMemoryReader.Rollback_push r0 t p h00
      rcases InMemoryReader.run_open_begin r cs.length cs rfl es0 r0 h0 with
        ⟨rest, hrest⟩ | ⟨pre, inner, es1, r1, hdec, hwb, hpre, htop⟩
      · right
        exact ⟨rest, by rw [hrb, hrest, h00]; simp⟩
      · left
        rw [h00] at htop
        obtain ⟨ht, hp⟩ := List.append_inj' htop rfl
        simp only [List.cons.injEq, and_true] at hp
        exact ⟨pre, inner, es1, r1, hdec, hwb, hpre, by rw [hrb]; exact hp,
          by rw [hrb]; exact ht⟩

/-- An instance of C9 on the reader of the transaction test: after one read
the cursor is `(1, 2)`; an outer `Begin`, then a read, an inner `Begin`, a
read and the inner `Commit`, then `Rollback`: the cursor is `(1, 2)` again
although the inner transaction was committed. -/
theorem nested_rollback_witness :
    wellBracketed [Call.ReadRune, Call.Begin, Call.ReadRune, Call.Commit] = true ∧
    (∃ es1 r1 es2, (NewInMemoryReader [49, 50, 51, 52, 53, 54, 55, 56, 57]).run [Call.ReadRune] =
        some (es1, r1) ∧
      (NewInMemoryReader [49, 50, 51, 52, 53, 54, 55, 56, 57]).run
          ([Call.ReadRune] ++ Call.Begin ::
            ([Call.ReadRune, Call.Begin, Call.ReadRune, Call.Commit] ++ [Call.Rollback])) =
        some (es1 ++ none :: (es2 ++ [none]), r1)) ∧
    (NewInMemoryReader [49, 50, 51, 52, 53, 54, 55, 56, 57]).run
        [Call.ReadRune, Call.Begin, Call.ReadRune, Call.Begin, Call.ReadRune, Call.Commit,
          Call.Rollback] =
      some ([none, none, none, none, none, none, none],
        ⟨[[49, 50, 51, 52, 53, 54, 55, 56, 57]], ⟨1, 2⟩, []⟩) :=
  ⟨by decide, (nested_rollback (NewInMemoryReader [49, 50, 51, 52, 53, 54, 55, 56, 57])).1
    [Call.ReadRune] [Call.ReadRune, Call.Begin, Call.ReadRune, Call.Commit] (by decide),
    by decide⟩

/-! ## The transaction guard -/

/-- C10: rollback unless committed.  On a `Transaction` made by
`NewTransaction` and not resolved since, `Guard` invokes `Rollback` of the
transactional value exactly once and nothing else: on the logging
transactional the log grows by the single entry `Rollback`, whatever state
`s` the value is in.  On a reader, after `NewTransaction` and a well-bracketed
sequence of calls (any reads, every `Begin` resolved), `Guard` gives back the
reader of the `NewTransaction` call: same cursor, same stack, same lines. -/
theorem guard_rolls_back {σ : Type} (T : Transactional σ) (log0 log : List TxnMethod)
    (t0 s : σ) (r0 : InMemoryReader) (cs : List Call) (hwb : wellBracketed cs = true) :
    Transaction.Guard T.logged (NewTransaction T.logged (log0, t0)).1 (log, s) =
      ((NewTransaction T.logged (log0, t0)).1, (log ++ [TxnMethod.Rollback], (T.Rollback s).2)) ∧
    (NewTransaction T.logged (log0, t0)).2 = (log0 ++ [TxnMethod.Begin], T.Begin t0) ∧
    ∃ es r2, (NewTransaction InMemoryReader.asTransactional r0).2.run cs = some (es, r2) ∧
      Transaction.Guard InMemoryReader.asTransactional
        (NewTransaction InMemoryReader.asTransactional r0).1 r2 =
        ((NewTransaction InMemoryReader.asTransactional r0).1, r0) := by
  refine ⟨rfl, rfl, ?_⟩
  obtain ⟨es, r2, h2, h3, -⟩ := InMemoryReader.run_bracket cs r0 hwb
  refine ⟨es, r2, h2, ?_⟩
  simp only [Transaction.Guard, NewTransaction, InMemoryReader.asTransactional, h3]
  rfl

/-- Witness of C10 on the reader of the transaction test, with the cursor at
`(1, 4)`: `NewTransaction`, two reads, `Guard`; the cursor is `(1, 4)` again. -/
theorem guard_rolls_back_witness :
    wellBracketed [Call.ReadRune, Call.ReadRune] = true ∧
    (Transaction.Guard InMemoryReader.asTransactional.logged
        (NewTransaction InMemoryReader.asTransactional.logged
          ([], ⟨[[49, 50, 51, 52, 53, 54, 55, 56, 57]], ⟨1, 4⟩, []⟩)).1
        ([TxnMethod.Begin], ⟨[[49, 50, 51, 52, 53, 54, 55, 56, 57]], ⟨1, 6⟩, [⟨1, 4⟩]⟩) =
      ((NewTransaction InMemoryReader.asTransactional.logged
          ([], ⟨[[49, 50, 51, 52, 53, 54, 55, 56, 57]], ⟨1, 4⟩, []⟩)).1,
        ([TxnMethod.Begin] ++ [TxnMethod.Rollback],
          (InMemoryReader.asTransactional.Rollback
            ⟨[[49, 50, 51, 52, 53, 54, 55, 56, 57]], ⟨1, 6⟩, [⟨1, 4⟩]⟩).2)) ∧
      (NewTransaction InMemoryReader.asTransactional.logged
          ([], ⟨[[49, 50, 51, 52, 53, 54, 55, 56, 57]], ⟨1, 4⟩, []⟩)).2 =
        ([] ++ [TxnMethod.Begin], InMemoryReader.asTransactional.Begin
          ⟨[[49, 50, 51, 52, 53, 54, 55, 56, 57]], ⟨1, 4⟩, []⟩) ∧
      ∃ es r2, (NewTransaction InMemoryReader.asTransactional
          ⟨[[49, 50, 51, 52, 53, 54, 55, 56, 57]], ⟨1, 4⟩, []⟩).2.run
            [Call.ReadRune, Call.ReadRune] = some (es, r2) ∧
        Transaction.Guard InMemoryReader.asTransactional
          (NewTransaction InMemoryReader.asTransactional
            ⟨[[49, 50, 51, 52, 53, 54, 55, 56, 57]], ⟨1, 4⟩, []⟩).1 r2 =
          ((NewTransaction InMemoryReader.asTransactional
            ⟨[[49, 50, 51, 52, 53, 54, 55, 56, 57]], ⟨1, 4⟩, []⟩).1,
            ⟨[[49, 50, 51, 52, 53, 54, 55, 56, 57]], ⟨1, 4⟩, []⟩)) :=
  ⟨by decide, guard_rolls_back InMemoryReader.asTransactional [] [TxnMethod.Begin]
    ⟨[[49, 50, 51, 52, 53, 54, 55, 56, 57]], ⟨1, 4⟩, []⟩
    ⟨[[49, 50, 51, 52, 53, 54, 55, 56, 57]], ⟨1, 6⟩, [⟨1, 4⟩]⟩
    ⟨[[49, 50, 51, 52, 53, 54, 55, 56, 57]], ⟨1, 4⟩, []⟩
    [Call.ReadRune, Call.ReadRune] (by decide)⟩


/-! ## Explicit resolution and the guard -/

/-- C11: `Guard` is a no-op after an explicit resolution.  After `Commit` or
`Rollback` of a `Transaction`, which invoke the method of the same name of
the transactional value once, `Guard` invokes nothing (the log of
invocations is unchanged) and returns the state unchanged; on a reader the
cursor and the stack after `Guard` are those the explicit `Commit` or
`Rollback` left. -/
theorem guard_after_resolution {σ : Type} (T : Transactional σ) (txn : Transaction)
    (log : List TxnMethod) (s : σ) (r : InMemoryReader) :
    (Transaction.Commit T.logged txn (log, s)).2.2 =
      (log ++ [TxnMethod.Commit], (T.Commit s).2) ∧
    Transaction.Guard T.logged (Transaction.Commit T.logged txn (log, s)).2.1
        (Transaction.Commit T.logged txn (log, s)).2.2 =
      (⟨true⟩, (log ++ [TxnMethod.Commit], (T.Commit s).2)) ∧
    (Transaction.Rollback T.logged txn (log, s)).2.2 =
      (log ++ [TxnMethod.Rollback], (T.Rollback s).2) ∧
    Transaction.Guard T.logged (Transaction.Rollback T.logged txn (log, s)).2.1
        (Transaction.Rollback T.logged txn (log, s)).2.2 =
      (⟨true⟩, (log ++ [TxnMethod.Rollback], (T.Rollback s).2)) ∧
    Transaction.Guard InMemoryReader.asTransactional
        (Transaction.Commit InMemoryReader.asTransactional txn r).2.1
        (Transaction.Commit InMemoryReader.asTransactional txn r).2.2 =
      (⟨true⟩, (r.Commit).2) ∧
    Transaction.Guard InMemoryReader.asTransactional
        (Transaction.Rollback InMemoryReader.asTransactional txn r).2.1
        (Transaction.Rollback InMemoryReader.asTransactional txn r).2.2 =
      (⟨true⟩, (r.Rollback).2) := by
  refine ⟨rfl, rfl, rfl, rfl, rfl, rfl⟩

/-- An instance of C11 on the reader of the transaction test: with the cursor
at `(1, 6)` inside a transaction opened at `(1, 4)`, an explicit `Commit`
followed by `Guard` leaves the cursor at `(1, 6)`, and an explicit `Rollback`
followed by `Guard` leaves the enclosing entry `(1, 1)` on the stack. -/
theorem guard_after_resolution_example :
    Transaction.Guard InMemoryReader.asTransactional
        (Transaction.Commit InMemoryReader.asTransactional ⟨false⟩
          ⟨[[49, 50, 51, 52, 53, 54, 55, 56, 57]], ⟨1, 6⟩, [⟨1, 1⟩, ⟨1, 4⟩]⟩).2.1
        (Transaction.Commit InMemoryReader.asTransactional ⟨false⟩
          ⟨[[49, 50, 51, 52, 53, 54, 55, 56, 57]], ⟨1, 6⟩, [⟨1, 1⟩, ⟨1, 4⟩]⟩).2.2 =
      (⟨true⟩, ⟨[[49, 50, 51, 52, 53, 54, 55, 56, 57]], ⟨1, 6⟩, [⟨1, 1⟩]⟩) ∧
    Transaction.Guard InMemoryReader.asTransactional
        (Transaction.Rollback InMemoryReader.asTransactional ⟨false⟩
          ⟨[[49, 50, 51, 52, 53, 54, 55, 56, 57]], ⟨1, 6⟩, [⟨1, 1⟩, ⟨1, 4⟩]⟩).2.1
        (Transaction.Rollback InMemoryReader.asTransactional ⟨false⟩
          ⟨[[49, 50, 51, 52, 53, 54, 55, 56, 57]], ⟨1, 6⟩, [⟨1, 1⟩, ⟨1, 4⟩]⟩).2.2 =
      (⟨true⟩, ⟨[[49, 50, 51, 52, 53, 54, 55, 56, 57]], ⟨1, 4⟩, [⟨1, 1⟩]⟩) := by
  decide

/-! ## Commit keeps the consumed input -/

namespace InMemoryReader

/-- `ReadRune` does not depend on the transaction stack. -/
theorem ReadRune_stack (r : InMemoryReader) (s : List TextPosition) :
    ReadRune ⟨r.lines, r.pos, s⟩ =
      (ReadRune r).map (fun x => (x.1, ⟨x.2.lines, x.2.pos, s⟩)) := by
  by_cases h : r.pos.Line ≤ 0 ∨ r.pos.Column ≤ 0 ∨ (r.lines.length : Int) < r.pos.Line
  · rw [ReadRune_eof r h, ReadRune_eof ⟨r.lines, r.pos, s⟩ h]
    rfl
  · have hL : 0 < r.pos.Line := by omega
    have hC : 0 < r.pos.Column := by omega
    obtain ⟨ln, -, hln⟩ := goIndex_of_lt r.lines (r.pos.Line - 1) (by omega) (by omega)
    by_cases hc : (ln.length : Int) < r.pos.Column
    · rw [ReadRune_lineEnd r ln hL hC hln hc,
        ReadRune_lineEnd ⟨r.lines, r.pos, s⟩ ln hL hC hln hc]
      rfl
    · obtain ⟨c, -, hc2⟩ := goIndex_of_lt ln (r.pos.Column - 1) (by omega) (by omega)
      rw [ReadRune_inLine r ln c hL hC hln hc2,
        ReadRune_inLine ⟨r.lines, r.pos, s⟩ ln c hL hC hln hc2]
      rfl

/-- The reads from a state do not depend on the transaction stack, which they
leave unchanged. -/
theorem readTrace_stack (k : Nat) (r : InMemoryReader) (s : List TextPosition) :
    ∃ tr p, readTrace k r = some (tr, ⟨r.lines, p, r.posStack⟩) ∧
      readTrace k ⟨r.lines, r.pos, s⟩ = some (tr, ⟨r.lines, p, s⟩) := by
  induction k generalizing r with
  | zero => exact ⟨[], r.pos, rfl, rfl⟩
  | succ k ih =>
    obtain ⟨res, p, h⟩ := ReadRune_frame r
    have h2 := ReadRune_stack r s
    rw [h] at h2
    obtain ⟨tr, q, h3, h4⟩ := ih ⟨r.lines, p, r.posStack⟩
    refine ⟨(r.pos, res) :: tr, q, ?_, ?_⟩
    · simp only [readTrace, h, h3, CurrentPosition]
    · simp only [Option.map_some'] at h2
      simp only [readTrace, h2, h4, CurrentPosition]

end InMemoryReader

/-- C12: commit keeps consumption.  From any reader, `Begin`, then `k` calls
of `ReadRune`, then `Commit` returns no error and leaves exactly the state
that the same `k` calls of `ReadRune` alone, which return the same results,
leave: the cursor advanced and the stack as before `Begin`. -/
theorem Begin_reads_Commit (r : InMemoryReader) (k : Nat) :
    ∃ tr r1 r2, r.Begin.readTrace k = some (tr, r1) ∧ r.readTrace k = some (tr, r2) ∧
      r1.Commit = (none, r2) := by
  obtain ⟨tr, p, h1, h2⟩ := InMemoryReader.readTrace_stack k r (r.posStack ++ [r.pos])
  exact ⟨tr, _, _, h2, h1, InMemoryReader.Commit_push _ r.posStack r.pos rfl⟩

/-- An instance of C12 on the reader of the transaction test: from `(1, 2)`,
`Begin`, two reads and `Commit` leave the cursor at `(1, 4)` and the stack
empty. -/
theorem Begin_reads_Commit_example :
    ((InMemoryReader.Begin ⟨[[49, 50, 51, 52, 53, 54, 55, 56, 57]], ⟨1, 2⟩, []⟩).readTrace 2).map
        (fun x => (x.2.Commit)) =
      some (none, ⟨[[49, 50, 51, 52, 53, 54, 55, 56, 57]], ⟨1, 4⟩, []⟩) := by
  decide

/-! ## Validity of positions -/

/-- C15: a position is valid exactly when its line and its column are both
positive; the zero value is invalid and the start position `(1, 1)` is
valid. -/
theorem IsValid_contract (p : TextPosition) :
    (p.IsValid = true ↔ p.Line > 0 ∧ p.Column > 0) ∧
    TextPositionZero.IsValid = false ∧
    TextPositionStart.IsValid = true ∧ TextPositionStart = ⟨1, 1⟩ := by
  refine ⟨?_, by decide, by decide, rfl⟩
  simp [TextPosition.IsValid]

/-! ## The guard does not resolve the transaction -/

/-- C20: `Guard` does not mark the `Transaction` as resolved.  On a
`Transaction` made by `NewTransaction` and not resolved, a first `Guard`
leaves `done` false and a second `Guard` invokes `Rollback` again: the log of
invocations grows by two `Rollback` entries.  On a reader whose stack holds
an enclosing entry `q` below the entry `p` of the transaction, the first
`Guard` restores `p` and the second pops `q` and moves the cursor to `q`.
`Commit` and `Rollback` of a `Transaction` set `done` whatever the delegated
call returns, so on a reader with an empty stack they return the error and a
following `Guard` does nothing. -/
theorem guard_twice {σ : Type} (T : Transactional σ) (log0 log : List TxnMethod) (t0 s : σ)
    (lines : List (List Rune)) (pos p q : TextPosition) (base : List TextPosition)
    (txn : Transaction) :
    (Transaction.Guard T.logged (NewTransaction T.logged (log0, t0)).1 (log, s)).1.done = false ∧
    Transaction.Guard T.logged
        (Transaction.Guard T.logged (NewTransaction T.logged (log0, t0)).1 (log, s)).1
        (Transaction.Guard T.logged (NewTransaction T.logged (log0, t0)).1 (log, s)).2 =
      (⟨false⟩, (log ++ [TxnMethod.Rollback] ++ [TxnMethod.Rollback],
        (T.Rollback (T.Rollback s).2).2)) ∧
    Transaction.Guard InMemoryReader.asTransactional ⟨false⟩ ⟨lines, pos, base ++ [q, p]⟩ =
      (⟨false⟩, ⟨lines, p, base ++ [q]⟩) ∧
    Transaction.Guard InMemoryReader.asTransactional ⟨false⟩ ⟨lines, p, base ++ [q]⟩ =
      (⟨false⟩, ⟨lines, q, base⟩) ∧
    (Transaction.Commit T txn s).2.1.done = true ∧
    (Transaction.Rollback T txn s).2.1.done = true ∧
    Transaction.Commit InMemoryReader.asTransactional txn ⟨lines, pos, []⟩ =
      (some Error.noActiveTransaction, ⟨true⟩, ⟨lines, pos, []⟩) ∧
    Transaction.Rollback InMemoryReader.asTransactional txn ⟨lines, pos, []⟩ =
      (some Error.noActiveTransaction, ⟨true⟩, ⟨lines, pos, []⟩) ∧
    Transaction.Guard InMemoryReader.asTransactional ⟨true⟩ ⟨lines, pos, base⟩ =
      (⟨true⟩, ⟨lines, pos, base⟩) := by
  refine ⟨rfl, rfl, ?_, ?_, rfl, rfl, rfl, rfl, rfl⟩
  · have h := InMemoryReader.Rollback_push ⟨lines, pos, base ++ [q, p]⟩ (base ++ [q]) p (by simp)
    simp only [Transaction.Guard, InMemoryReader.asTransactional, h]
    rfl
  · have h := InMemoryReader.Rollback_push ⟨lines, p, base ++ [q]⟩ base q rfl
    simp only [Transaction.Guard, InMemoryReader.asTransactional, h]
    rfl

/-- An instance of C20 on the reader of the transaction test: inside a
transaction opened at `(1, 1)`, a `Transaction` opened at `(1, 4)` and guarded
twice ends with the cursor at `(1, 1)` and the enclosing entry gone. -/
theorem guard_twice_example :
    Transaction.Guard InMemoryReader.asTransactional
        (Transaction.Guard InMemoryReader.asTransactional ⟨false⟩
          ⟨[[49, 50, 51, 52, 53, 54, 55, 56, 57]], ⟨1, 6⟩, [⟨1, 1⟩, ⟨1, 4⟩]⟩).1
        (Transaction.Guard InMemoryReader.asTransactional ⟨false⟩
          ⟨[[49, 50, 51, 52, 53, 54, 55, 56, 57]], ⟨1, 6⟩, [⟨1, 1⟩, ⟨1, 4⟩]⟩).2 =
      (⟨false⟩, ⟨[[49, 50, 51, 52, 53, 54, 55, 56, 57]], ⟨1, 1⟩, []⟩) := by
  decide


/-! ## The reachable-state invariant -/

theorem getD_of_getElem? (lines : List (List Rune)) (i : Nat) (ln : List Rune)
    (h : lines[i]? = some ln) : lines.getD i [] = ln := by
  rw [List.getD_eq_getElem?_getD, h]
  rfl

namespace InMemoryReader

/-- `ReadRune` keeps the cursor inside the text. -/
theorem ReadRune_inText (r r1 : InMemoryReader) (res : ReadResult)
    (hinv : r.pos.inText r.lines) (h : r.ReadRune = some (res, r1)) :
    r1.lines = r.lines ∧ r1.posStack = r.posStack ∧ r1.pos.inText r.lines := by
  obtain ⟨hv, h1, h2, h3, h4⟩ := hinv
  by_cases hbad : r.pos.Line ≤ 0 ∨ r.pos.Column ≤ 0 ∨ (r.lines.length : Int) < r.pos.Line
  · rw [ReadRune_eof r hbad] at h
    cases h
    exact ⟨rfl, rfl, hv, h1, h2, h3, h4⟩
  · have hL : 0 < r.pos.Line := by omega
    have hC : 0 < r.pos.Column := by omega
    obtain ⟨ln, -, hln⟩ := goIndex_of_lt r.lines (r.pos.Line - 1) (by omega) (by omega)
    by_cases hc : (ln.length : Int) < r.pos.Column
    · rw [ReadRune_lineEnd r ln hL hC hln hc] at h
      cases h
      refine ⟨rfl, rfl, ?_, ?_, ?_, ?_, ?_⟩
      · exact (IsValid_iff _).2 ⟨by show 0 < r.pos.Line + 1; omega, by show (0 : Int) < 1; omega⟩
      · show 1 ≤ r.pos.Line + 1
        omega
      · show r.pos.Line + 1 ≤ (r.lines.length : Int) + 1
        omega
      · intro _
        show (1 : Int) ≤ _
        omega
      · intro _
        rfl
    · obtain ⟨c, -, hc2⟩ := goIndex_of_lt ln (r.pos.Column - 1) (by omega) (by omega)
      rw [ReadRune_inLine r ln c hL hC hln hc2] at h
      cases h
      have hget := getD_of_getElem? r.lines _ ln hln
      refine ⟨rfl, rfl, ?_, h1, h2, ?_, ?_⟩
      · exact (IsValid_iff _).2 ⟨hL, by show 0 < r.pos.Column + 1; omega⟩
      · intro _
        show r.pos.Column + 1 ≤ _
        rw [hget]
        omega
      · intro hlast
        have : r.pos.Line = (r.lines.length : Int) + 1 := hlast
        omega

/-- Every call keeps the cursor and the saved positions inside the text. -/
theorem call_inText (c : Call) (r r1 : InMemoryReader) (e : Option Error)
    (hpos : r.pos.inText r.lines) (hstack : ∀ p ∈ r.posStack, p.inText r.lines)
    (h : call c r = some (e, r1)) :
    r1.lines = r.lines ∧ r1.pos.inText r.lines ∧ ∀ p ∈ r1.posStack, p.inText r.lines := by
  cases c with
  | ReadRune =>
    obtain ⟨res, p, hr⟩ := ReadRune_frame r
    obtain ⟨-, -, h3⟩ := ReadRune_inText r _ res hpos hr
    simp only [call, hr, Option.map_some', Option.some.injEq, Prod.mk.injEq] at h
    rw [← h.2]
    exact ⟨rfl, h3, hstack⟩
  | Begin =>
    simp only [call, Option.some.injEq, Prod.mk.injEq] at h
    rw [← h.2]
    refine ⟨rfl, hpos, ?_⟩
    intro p hp
    simp only [Begin, List.mem_append, List.mem_singleton] at hp
    rcases hp with hp | rfl
    · exact hstack p hp
    · exact hpos
  | Commit =>
    simp only [call, Option.some.injEq] at h
    rcases stack_cases r.posStack with h0 | ⟨t, p, h0⟩
    · rw [Commit_empty r h0] at h
      cases h
      exact ⟨rfl, hpos, hstack⟩
    · rw [Commit_push r t p h0] at h
      cases h
      exact ⟨rfl, hpos, fun x hx => hstack x (by rw [h0]; simp [hx])⟩
  | Rollback =>
    simp only [call, Option.some.injEq] at h
    rcases stack_cases r.posStack with h0 | ⟨t, p, h0⟩
    · rw [Rollback_empty r h0] at h
      cases h
      exact ⟨rfl, hpos, hstack⟩
    · rw [Rollback_push r t p h0] at h
      cases h
      exact ⟨rfl, hstack p (by rw [h0]; simp), fun x hx => hstack x (by rw [h0]; simp [hx])⟩

/-- Every sequence of calls keeps the cursor and the saved positions inside
the text. -/
theorem run_inText (cs : List Call) (r : InMemoryReader)
    (hpos : r.pos.inText r.lines) (hstack : ∀ p ∈ r.posStack, p.inText r.lines) :
    ∃ es r1, run cs r = some (es, r1) ∧ r1.lines = r.lines ∧ r1.pos.inText r.lines ∧
      ∀ p ∈ r1.posStack, p.inText r.lines := by
  induction cs generalizing r with
  | nil => exact ⟨[], r, rfl, rfl, hpos, hstack⟩
  | cons c cs ih =>
    obtain ⟨e, r1, hc, -⟩ := call_total c r
    obtain ⟨hl, h1, h2⟩ := call_inText c r r1 e hpos hstack hc
    obtain ⟨es, r2, hr, hl2, h3, h4⟩ := ih r1 (by rw [hl]; exact h1) (by rw [hl]; exact h2)
    rw [hl] at hl2 h3 h4
    exact ⟨e :: es, r2, run_cons c cs r r1 r2 e es hc hr, hl2, h3, h4⟩

end InMemoryReader

/-- The start position is inside every text. -/
theorem TextPositionStart_inText (lines : List (List Rune)) :
    TextPositionStart.inText lines := by
  refine ⟨by decide, by decide, ?_, ?_, fun _ => rfl⟩
  · show (1 : Int) ≤ (lines.length : Int) + 1
    omega
  · intro _
    show (1 : Int) ≤ _
    omega

/-- C17: reachable-state invariant.  For a reader made by `NewInMemoryReader`
over `L` stored lines, any sequence of `ReadRune`, `Begin`, `Commit` and
`Rollback` calls runs without panic and keeps the stored lines; after it the
cursor is valid, its line is between 1 and `L + 1`, its column is at most the
length of its line plus one when the line is at most `L` and is 1 when the
line is `L + 1`, and every position saved on the transaction stack satisfies
the same conditions. -/
theorem reachable_invariant (buf : List UInt8) (cs : List Call) :
    ∃ es r, (NewInMemoryReader buf).run cs = some (es, r) ∧
      r.lines = (NewInMemoryReader buf).lines ∧
      (r.pos.IsValid = true ∧ 1 ≤ r.pos.Line ∧ r.pos.Line ≤ (r.lines.length : Int) + 1 ∧
        (r.pos.Line ≤ (r.lines.length : Int) →
          r.pos.Column ≤ ((r.lines.getD (r.pos.Line - 1).toNat []).length : Int) + 1) ∧
        (r.pos.Line = (r.lines.length : Int) + 1 → r.pos.Column = 1)) ∧
      ∀ p ∈ r.posStack, p.inText r.lines := by
  obtain ⟨es, r, h1, h2, h3, h4⟩ := InMemoryReader.run_inText cs (NewInMemoryReader buf)
    (TextPositionStart_inText _) (fun p hp => by simp [NewInMemoryReader] at hp)
  rw [← h2] at h3 h4
  exact ⟨es, r, h1, h2, h3, h4⟩

/-- An instance of C17 on the text `ab\nc\n`: after three reads, `Begin`, three
reads, `Begin`, one read, the cursor is `(3, 1)`, one past the two lines, and
the stack holds `(2, 1)` and `(3, 1)`. -/
theorem reachable_invariant_example :
    (NewInMemoryReader [97, 98, 10, 99, 10]).run
        [Call.ReadRune, Call.ReadRune, Call.ReadRune, Call.Begin, Call.ReadRune, Call.ReadRune,
          Call.ReadRune, Call.Begin, Call.ReadRune] =
      some ([none, none, none, none, none, none, some Error.EOF, none, some Error.EOF],
        ⟨[[97, 98], [99]], ⟨3, 1⟩, [⟨2, 1⟩, ⟨3, 1⟩]⟩) := by
  decide


/-! ## Absence of panics -/

namespace UntypedReader

/-- A call on the reader with the untyped stack, when the stack holds the
positions of a typed stack, does what the call on the typed reader does. -/
theorem call_untyped (c : Call) (r : InMemoryReader) :
    call c r.untyped = (InMemoryReader.call c r).map (fun x => (x.1, x.2.untyped)) := by
  cases c with
  | ReadRune =>
    obtain ⟨res, p, h⟩ := InMemoryReader.ReadRune_frame r
    have h2 := InMemoryReader.ReadRune_stack r []
    rw [h] at h2
    simp only [Option.map_some'] at h2
    simp only [call, ReadRune, InMemoryReader.untyped, h2, InMemoryReader.call, h,
      Option.map_some']
  | Begin =>
    simp [call, Begin, InMemoryReader.call, InMemoryReader.Begin, InMemoryReader.untyped]
  | Commit =>
    rcases stack_cases r.posStack with h0 | ⟨t, p, h0⟩
    · simp [call, Commit, InMemoryReader.call, InMemoryReader.Commit_empty r h0,
        InMemoryReader.untyped, h0]
    · simp [call, Commit, InMemoryReader.call, InMemoryReader.Commit_push r t p h0,
        InMemoryReader.untyped, h0]
  | Rollback =>
    rcases stack_cases r.posStack with h0 | ⟨t, p, h0⟩
    · simp [call, Rollback, InMemoryReader.call, InMemoryReader.Rollback_empty r h0,
        InMemoryReader.untyped, h0]
    · simp [call, Rollback, InMemoryReader.call, InMemoryReader.Rollback_push r t p h0,
        InMemoryReader.untyped, h0]

/-- A sequence of calls on the reader with the untyped stack, from a stack
that holds positions only, never panics and ends with a stack that holds
positions only. -/
theorem run_untyped (cs : List Call) (r : InMemoryReader) :
    ∃ es r1, InMemoryReader.run cs r = some (es, r1) ∧
      run cs r.untyped = some (es, r1.untyped) := by
  induction cs generalizing r with
  | nil => exact ⟨[], r, rfl, rfl⟩
  | cons c cs ih =>
    obtain ⟨e, r1, hc, -⟩ := InMemoryReader.call_total c r
    obtain ⟨es, r2, h1, h2⟩ := ih r1
    have hu := call_untyped c r
    rw [hc] at hu
    simp only [Option.map_some'] at hu
    exact ⟨e :: es, r2, InMemoryReader.run_cons c cs r r1 r2 e es hc h1, by
      simp only [run, hu, h2]⟩

end UntypedReader

/-- C18: `ReadRune` and `Rollback` never panic.  In every state of the
reader, whatever the cursor, `ReadRune` returns: no index expression of it is
out of range.  On the reader whose stack is the untyped list of Go, where the
type assertion of `Rollback` panics on a value that is no `TextPosition`, any
sequence of calls from a reader made by `NewInMemoryReader` runs without
panic, does what it does on the typed reader, and leaves a stack whose values
are all of type `TextPosition`, because `Begin` is the only method that
pushes. -/
theorem no_panic (r : InMemoryReader) (buf : List UInt8) (cs : List Call) :
    (∃ res p, r.ReadRune = some (res, ⟨r.lines, p, r.posStack⟩)) ∧
    (∃ es r1, (NewInMemoryReader buf).run cs = some (es, r1) ∧
      UntypedReader.run cs (NewInMemoryReader buf).untyped = some (es, r1.untyped) ∧
      (∀ v ∈ r1.untyped.posStack, ∃ p, v = GoValue.textPosition p) ∧
      ∃ res, UntypedReader.Rollback r1.untyped = some res) ∧
    (∀ lines pos s, UntypedReader.Rollback ⟨lines, pos, s ++ [GoValue.other]⟩ = none) := by
  refine ⟨InMemoryReader.ReadRune_frame r, ?_, ?_⟩
  · obtain ⟨es, r1, h1, h2⟩ := UntypedReader.run_untyped cs (NewInMemoryReader buf)
    refine ⟨es, r1, h1, h2, ?_, ?_⟩
    · intro v hv
      simp only [InMemoryReader.untyped, List.mem_map] at hv
      obtain ⟨p, -, rfl⟩ := hv
      exact ⟨p, rfl⟩
    · have h := UntypedReader.call_untyped Call.Rollback r1
      simp only [UntypedReader.call, InMemoryReader.call, Option.map_some'] at h
      exact ⟨_, h⟩
  · intro lines pos s
    simp [UntypedReader.Rollback]

/-- Instances of C18: `ReadRune` returns `io.EOF` at the cursors `(0, 0)`,
`(-1, 5)`, `(1, -3)` and `(7, 1)` over one stored line, and the line break at
the cursor `(1, 9)` past the end of the line. -/
theorem no_panic_example :
    InMemoryReader.ReadRune ⟨[[97, 98]], ⟨0, 0⟩, []⟩ =
      some (⟨0, 0, some Error.EOF⟩, ⟨[[97, 98]], ⟨0, 0⟩, []⟩) ∧
    InMemoryReader.ReadRune ⟨[[97, 98]], ⟨-1, 5⟩, []⟩ =
      some (⟨0, 0, some Error.EOF⟩, ⟨[[97, 98]], ⟨-1, 5⟩, []⟩) ∧
    InMemoryReader.ReadRune ⟨[[97, 98]], ⟨1, -3⟩, []⟩ =
      some (⟨0, 0, some Error.EOF⟩, ⟨[[97, 98]], ⟨1, -3⟩, []⟩) ∧
    InMemoryReader.ReadRune ⟨[[97, 98]], ⟨7, 1⟩, []⟩ =
      some (⟨0, 0, some Error.EOF⟩, ⟨[[97, 98]], ⟨7, 1⟩, []⟩) ∧
    InMemoryReader.ReadRune ⟨[[97, 98]], ⟨1, 9⟩, []⟩ =
      some (⟨10, 1, none⟩, ⟨[[97, 98]], ⟨2, 1⟩, []⟩) := by
  decide

/-! ## Progress and exhaustion -/

theorem lineReads_ok (n j : Int) (l : List Rune) :
    (lineReads n j l).length = l.length + 1 ∧ ∀ x ∈ lineReads n j l, x.2.err = none := by
  induction l generalizing j with
  | nil => simp [lineReads, readOk]
  | cons c cs ih =>
    obtain ⟨h1, h2⟩ := ih (j + 1)
    refine ⟨by simp [lineReads, h1], ?_⟩
    intro x hx
    simp only [lineReads, List.mem_cons] at hx
    rcases hx with rfl | hx
    · rfl
    · exact h2 x hx

theorem linesReads_ok (n : Int) (ls : List (List Rune)) :
    (linesReads n ls).length = (ls.map (fun l => l.length + 1)).sum ∧
      ∀ x ∈ linesReads n ls, x.2.err = none := by
  induction ls generalizing n with
  | nil => simp [linesReads]
  | cons l ls ih =>
    obtain ⟨h1, h2⟩ := ih (n + 1)
    obtain ⟨h3, h4⟩ := lineReads_ok n 1 l
    refine ⟨by simp [linesReads, h1, h3], ?_⟩
    intro x hx
    simp only [linesReads, List.mem_append] at hx
    rcases hx with hx | hx
    · exact h4 x hx
    · exact h2 x hx

/-- C19: progress and exhaustion.  Every `ReadRune` that returns no error
moves the cursor strictly up in the lexicographic order on `(Line, Column)`.
From a reader made by `NewInMemoryReader`, whose stored lines have the lengths
`n_1, ..., n_L`, the first `(n_1 + 1) + ... + (n_L + 1)` calls of `ReadRune`
all return without error and the next one returns `io.EOF`. -/
theorem progress_and_exhaustion (r : InMemoryReader) (buf : List UInt8) :
    (∀ res r1, r.ReadRune = some (res, r1) → res.err = none → r.pos.lexLt r1.pos) ∧
    (∃ tr p r1, (NewInMemoryReader buf).readTrace
        (((NewInMemoryReader buf).lines.map (fun l => l.length + 1)).sum + 1) =
          some (tr ++ [(p, ⟨0, 0, some Error.EOF⟩)], r1) ∧
      tr.length = ((NewInMemoryReader buf).lines.map (fun l => l.length + 1)).sum ∧
      ∀ x ∈ tr, x.2.err = none) := by
  constructor
  · intro res r1 h hok
    by_cases hbad : r.pos.Line ≤ 0 ∨ r.pos.Column ≤ 0 ∨ (r.lines.length : Int) < r.pos.Line
    · rw [InMemoryReader.ReadRune_eof r hbad] at h
      cases h
      cases hok
    · have hL : 0 < r.pos.Line := by omega
      have hC : 0 < r.pos.Column := by omega
      obtain ⟨ln, -, hln⟩ := goIndex_of_lt r.lines (r.pos.Line - 1) (by omega) (by omega)
      by_cases hc : (ln.length : Int) < r.pos.Column
      · rw [InMemoryReader.ReadRune_lineEnd r ln hL hC hln hc] at h
        cases h
        left
        show r.pos.Line < r.pos.Line + 1
        omega
      · obtain ⟨c, -, hc2⟩ := goIndex_of_lt ln (r.pos.Column - 1) (by omega) (by omega)
        rw [InMemoryReader.ReadRune_inLine r ln c hL hC hln hc2] at h
        cases h
        right
        exact ⟨rfl, by show r.pos.Column < r.pos.Column + 1; omega⟩
  · have h := InMemoryReader.readTrace_lines [] [] (NewInMemoryReader buf).lines
    obtain ⟨h1, h2⟩ := linesReads_ok (((([] : List (List Rune)).length : Nat) : Int) + 1)
      (NewInMemoryReader buf).lines
    exact ⟨_, _, _, h, h1, h2⟩

/-- An instance of C19 on the text `ab\nc\n\nd\n` of the reader's test: its
four lines have the lengths 2, 1, 0 and 1, the first eight reads return no
error and the ninth returns `io.EOF`. -/
theorem progress_and_exhaustion_example :
    (((NewInMemoryReader [97, 98, 10, 99, 10, 10, 100, 10]).lines.map
        (fun l => l.length + 1)).sum = 8) ∧
    ((NewInMemoryReader [97, 98, 10, 99, 10, 10, 100, 10]).readTrace 9).map
        (fun x => x.1.map (fun y => y.2.err)) =
      some [none, none, none, none, none, none, none, none, some Error.EOF] := by
  decide


/-! ## A text without a final line feed -/

theorem scanLinesFrom_nil (cur : List UInt8) :
    scanLinesFrom cur [] =
      if cur = [] ∨ MaxScanTokenSize ≤ cur.length then [] else [dropCR cur] := by
  rw [scanLinesFrom]

theorem scanLinesFrom_cons (cur : List UInt8) (b : UInt8) (rest : List UInt8) :
    scanLinesFrom cur (b :: rest) =
      if b = 10 then
        if MaxScanTokenSize ≤ cur.length then [] else dropCR cur :: scanLinesFrom [] rest
      else scanLinesFrom (cur ++ [b]) rest := by
  rw [scanLinesFrom]

/-- The scanner yields the same tokens for an input that does not end with a
line feed and for the input followed by a line feed. -/
theorem scanLinesFrom_final_newline (cur buf : List UInt8) (hne : buf ≠ [])
    (hlast : buf.getLast? ≠ some 10) :
    scanLinesFrom cur (buf ++ [10]) = scanLinesFrom cur buf := by
  induction buf generalizing cur with
  | nil => exact absurd rfl hne
  | cons b rest ih =>
    cases rest with
    | nil =>
      have hb : b ≠ 10 := by simpa using hlast
      have hcur : cur ++ [b] ≠ [] := by simp
      have e1 : scanLinesFrom cur ([b] ++ [10]) =
          if MaxScanTokenSize ≤ (cur ++ [b]).length then []
          else dropCR (cur ++ [b]) :: scanLinesFrom [] [] := by
        rw [List.singleton_append, scanLinesFrom_cons, if_neg hb, scanLinesFrom_cons, if_pos rfl]
      have e2 : scanLinesFrom cur [b] =
          if cur ++ [b] = [] ∨ MaxScanTokenSize ≤ (cur ++ [b]).length then []
          else [dropCR (cur ++ [b])] := by
        rw [scanLinesFrom_cons, if_neg hb, scanLinesFrom_nil]
      have e3 : scanLinesFrom [] [] = [] := by
        rw [scanLinesFrom_nil, if_pos (Or.inl rfl)]
      rw [e1, e2, e3]
      by_cases hlen : MaxScanTokenSize ≤ (cur ++ [b]).length
      · rw [if_pos hlen, if_pos (Or.inr hlen)]
      · rw [if_neg hlen, if_neg (by simp only [hcur, false_or]; exact hlen)]
    | cons b2 rest2 =>
      have hlast2 : (b2 :: rest2).getLast? ≠ some 10 := by
        rw [List.getLast?_cons_cons] at hlast
        exact hlast
      rw [List.cons_append, scanLinesFrom_cons, scanLinesFrom_cons cur b (b2 :: rest2)]
      by_cases hb : b = 10
      · rw [if_pos hb, if_pos hb, ih [] (by simp) hlast2]
      · rw [if_neg hb, if_neg hb, ih (cur ++ [b]) (by simp) hlast2]

/-- The reader made over an input that does not end with a line feed is the
reader made over the input followed by a line feed. -/
theorem NewInMemoryReader_final_newline (buf : List UInt8) (hne : buf ≠ [])
    (hlast : buf.getLast? ≠ some 10) :
    NewInMemoryReader (buf ++ [10]) = NewInMemoryReader buf := by
  unfold NewInMemoryReader scanLines
  rw [scanLinesFrom_final_newline [] buf hne hlast]

/-- The scanner yields nothing from a line that does not fit its buffer. -/
theorem scanLinesFrom_too_long (cur l : List UInt8) (hl : ∀ b ∈ l, b ≠ 10)
    (hlen : MaxScanTokenSize ≤ (cur ++ l).length) : scanLinesFrom cur l = [] := by
  induction l generalizing cur with
  | nil =>
    rw [List.append_nil] at hlen
    rw [scanLinesFrom_nil, if_pos (Or.inr hlen)]
  | cons b bs ih =>
    rw [scanLinesFrom_cons, if_neg (hl b (List.mem_cons_self _ _)),
      ih (cur ++ [b]) (fun x hx => hl x (List.mem_cons_of_mem _ hx)) (by simpa using hlen)]

theorem utf8Encode_replicate_a (n : Nat) :
    utf8Encode (List.replicate n 'a') = List.replicate n 97 := by
  induction n with
  | zero => rfl
  | succ n ih =>
    rw [List.replicate_succ, List.replicate_succ,
      show 'a' :: List.replicate n 'a' = ['a'] ++ List.replicate n 'a' from rfl,
      utf8Encode_append, ih]
    rfl

theorem utf8Encode_getLast (s : List Char) (c : Char) (x : Nat) (hx : x < 0x80)
    (hc : c.toNat ≠ x) : (utf8Encode (s ++ [c])).getLast? ≠ some (UInt8.ofNat x) := by
  intro h
  obtain ⟨ys, hys⟩ := List.getLast?_eq_some_iff.1 h
  rw [utf8Encode_append] at hys
  have hne : utf8Encode [c] ≠ [] := by
    intro h0
    have h1 := congrArg List.length h0
    have h2 := utf8EncodeRune_length c.toNat
    simp [utf8Encode] at h1
    rw [h1] at h2
    simp at h2
  obtain ⟨zs, z, hz⟩ : ∃ zs z, utf8Encode [c] = zs ++ [z] := by
    rcases List.eq_nil_or_concat (utf8Encode [c]) with h0 | ⟨zs, z, h0⟩
    · exact absurd h0 hne
    · exact ⟨zs, z, by simpa using h0⟩
  rw [hz, ← List.append_assoc] at hys
  obtain ⟨-, hzx⟩ := List.append_inj' hys rfl
  simp only [List.cons.injEq, and_true] at hzx
  exact utf8Encode_ne [c] x hx (fun d hd => by
    simp only [List.mem_singleton] at hd
    rw [hd]
    exact hc) z (by rw [hz]; simp) hzx

/-- The lines of a text hold only characters of the text. -/
theorem linesFrom_mem (P : Char → Prop) (cur s : List Char) (hcur : ∀ c ∈ cur, P c)
    (hs : ∀ c ∈ s, P c) : ∀ l ∈ linesFrom cur s, ∀ c ∈ l, P c := by
  induction s generalizing cur with
  | nil =>
    intro l hl
    unfold linesFrom at hl
    split_ifs at hl
    · simp at hl
    · simp only [List.mem_singleton] at hl
      rw [hl]
      exact hcur
  | cons c rest ih =>
    have hrest : ∀ x ∈ rest, P x := fun x hx => hs x (List.mem_cons_of_mem _ hx)
    intro l hl
    unfold linesFrom at hl
    split_ifs at hl
    · simp only [List.mem_cons] at hl
      rcases hl with rfl | hl
      · exact hcur
      · exact ih [] (by simp) hrest l hl
    · refine ih (cur ++ [c]) ?_ hrest l hl
      intro x hx
      simp only [List.mem_append, List.mem_singleton] at hx
      rcases hx with hx | rfl
      · exact hcur x hx
      · exact hs _ (List.mem_cons_self _ _)

/-- The lines of a text hold no line feed. -/
theorem linesFrom_no_newline (cur s : List Char) (hcur : ∀ c ∈ cur, c ≠ '\n') :
    ∀ l ∈ linesFrom cur s, ∀ c ∈ l, c ≠ '\n' := by
  induction s generalizing cur with
  | nil =>
    intro l hl
    unfold linesFrom at hl
    split_ifs at hl
    · simp at hl
    · simp only [List.mem_singleton] at hl
      rw [hl]
      exact hcur
  | cons c rest ih =>
    intro l hl
    unfold linesFrom at hl
    split_ifs at hl with hc
    · simp only [List.mem_cons] at hl
      rcases hl with rfl | hl
      · exact hcur
      · exact ih [] (by simp) l hl
    · refine ih (cur ++ [c]) ?_ l hl
      intro x hx
      simp only [List.mem_append, List.mem_singleton] at hx
      rcases hx with hx | rfl
      · exact hcur x hx
      · exact hc

/-- A text that does not end with a line feed, followed by a line feed, is
the text made of its lines. -/
theorem textOfLines_linesFrom (cur s : List Char) (hne : s ≠ [])
    (hlast : s.getLast? ≠ some '\n') :
    textOfLines (linesFrom cur s) = cur ++ s ++ ['\n'] := by
  induction s generalizing cur with
  | nil => exact absurd rfl hne
  | cons c rest ih =>
    cases rest with
    | nil =>
      have hc : c ≠ '\n' := by simpa using hlast
      have hcur : cur ++ [c] ≠ [] := by simp
      rw [linesFrom, if_neg hc, linesFrom, if_neg hcur]
      simp [textOfLines]
    | cons c2 rest2 =>
      have hlast2 : (c2 :: rest2).getLast? ≠ some '\n' := by
        rw [List.getLast?_cons_cons] at hlast
        exact hlast
      rw [linesFrom]
      by_cases hc : c = '\n'
      · rw [if_pos hc, hc]
        have h := ih [] (by simp) hlast2
        simp only [List.nil_append] at h
        simp only [textOfLines, List.map_cons, List.flatten_cons] at h ⊢
        rw [h]
        simp
      · rw [if_neg hc, ih (cur ++ [c]) (by simp) hlast2]
        simp


/-- The reads over a valid UTF-8 text made of lines without carriage return
that fit the scanner's buffer: the expected reads of the position model, then
`io.EOF` one line past the last. -/
theorem readTrace_textOfLines (ls : List (List Char))
    (hchars : ∀ l ∈ ls, ∀ c ∈ l, c ≠ '\n' ∧ c ≠ '\r')
    (hlen : ∀ l ∈ ls, (utf8Encode l).length < MaxScanTokenSize) :
    (NewInMemoryReader (utf8Encode (textOfLines ls))).readTrace ((textOfLines ls).length + 1) =
      some (expectedReads (textOfLines ls) ++
          [(⟨(ls.length : Int) + 1, 1⟩, ⟨0, 0, some Error.EOF⟩)],
        ⟨ls.map (fun l => l.map (fun c => (c.toNat : Int))), ⟨(ls.length : Int) + 1, 1⟩, []⟩) := by
  have hnl : ∀ l ∈ ls, ∀ c ∈ l, c ≠ '\n' := fun l hl c hc => (hchars l hl c hc).1
  rw [NewInMemoryReader_lines ls hchars hlen]
  have h := InMemoryReader.readTrace_lines [] []
    (ls.map (fun l => l.map (fun c => (c.toNat : Int))))
  have h2 := expectedReadsFrom_lines [] ls rfl hnl
  simp only [List.nil_append, List.length_nil, List.count_nil, Nat.cast_zero, Int.add_zero,
    Int.zero_add, List.length_map, List.map_map] at h h2
  have h3 : (ls.map ((fun l => l.length + 1) ∘ fun l => l.map (fun c => (c.toNat : Int)))).sum
      = (textOfLines ls).length := by
    rw [textOfLines_length]
    congr 1
    apply List.map_congr_left
    intro l _
    simp
  rw [h3] at h
  unfold expectedReads
  rw [h2]
  exact h

/-- A text of `n` letters `a`, for `n` at least the size of the scanner's
buffer: the reader stores no line and the first read returns `io.EOF`. -/
theorem too_long_line (n : Nat) (hn : MaxScanTokenSize ≤ n) :
    List.replicate n 'a' ≠ [] ∧
    (List.replicate n 'a').getLast? ≠ some '\n' ∧
    '\r' ∉ List.replicate n 'a' ∧
    (NewInMemoryReader (utf8Encode (List.replicate n 'a'))).ReadRune =
      some (⟨0, 0, some Error.EOF⟩, ⟨[], ⟨1, 1⟩, []⟩) ∧
    ¬ readsWithFinalBreak (List.replicate n 'a') := by
  have hlines : NewInMemoryReader (utf8Encode (List.replicate n 'a')) = ⟨[], ⟨1, 1⟩, []⟩ := by
    unfold NewInMemoryReader scanLines
    rw [utf8Encode_replicate_a, scanLinesFrom_too_long [] _
      (fun b hb => by rw [List.eq_of_mem_replicate hb]; decide)
      (by rw [List.nil_append, List.length_replicate]; exact hn)]
    rfl
  have hread : InMemoryReader.ReadRune ⟨[], ⟨1, 1⟩, []⟩ =
      some (⟨0, 0, some Error.EOF⟩, ⟨[], ⟨1, 1⟩, []⟩) := by decide
  obtain ⟨m, rfl⟩ : ∃ m, n = m + 1 := ⟨n - 1, by
    have : 0 < MaxScanTokenSize := by decide
    omega⟩
  refine ⟨?_, ?_, ?_, ?_, ?_⟩
  · rw [List.replicate_succ]
    exact List.cons_ne_nil _ _
  · intro h
    have hmem := List.mem_of_getLast?_eq_some h
    exact absurd (List.eq_of_mem_replicate hmem) (by decide)
  · intro h
    exact absurd (List.eq_of_mem_replicate h) (by decide)
  · rw [hlines, hread]
  · rintro ⟨p, r1, h⟩
    rw [hlines, List.length_replicate, InMemoryReader.readTrace, hread,
      List.replicate_succ] at h
    obtain ⟨tr, q, h3⟩ := InMemoryReader.readTrace_frame (m + 2) ⟨[], ⟨1, 1⟩, []⟩
    simp only [h3, expectedReads, List.cons_append, expectedReadsFrom, Option.some.injEq,
      Prod.mk.injEq, List.cons.injEq, readOk] at h
    have h4 := h.1.1.2
    simp at h4

/-- C13, the claim as stated fails: the text of 65536 letters `a` is not
empty, does not end with a line feed and holds no carriage return, but its
only line does not fit the scanner's buffer, the reader stores no line, and
the first `ReadRune` returns `io.EOF` instead of the first character. -/
theorem final_break_counterexample :
    List.replicate 65536 'a' ≠ [] ∧
    (List.replicate 65536 'a').getLast? ≠ some '\n' ∧
    '\r' ∉ List.replicate 65536 'a' ∧
    (NewInMemoryReader (utf8Encode (List.replicate 65536 'a'))).ReadRune =
      some (⟨0, 0, some Error.EOF⟩, ⟨[], ⟨1, 1⟩, []⟩) ∧
    ¬ readsWithFinalBreak (List.replicate 65536 'a') :=
  too_long_line 65536 (by decide)


theorem expectedReadsFrom_runes (text : List Char) (i : Nat) (cs : List Char) :
    (expectedReadsFrom text i cs).map (fun x => x.2.rune) =
      cs.map (fun c => (c.toNat : Int)) := by
  induction cs generalizing i with
  | nil => rfl
  | cons c cs ih => simp only [expectedReadsFrom, List.map_cons, ih, readOk]

/-- C13, amended with the scanner's limit: for every non-empty text `s` that
does not end with a line feed, holds no carriage return and whose lines are
all below the scanner's token limit, the reads of the reader over `s` are the
characters of `s` in order, then one line break, then `io.EOF`; the reader is
the one made over `s` followed by a line feed, so the results and the
positions are the same.  For the empty text the first read is `io.EOF`. -/
theorem final_line_break (s : List Char) (hne : s ≠ []) (hlast : s.getLast? ≠ some '\n')
    (hcr : '\r' ∉ s)
    (hlen : ∀ l ∈ linesOfText s, (utf8Encode l).length < MaxScanTokenSize) :
    readsWithFinalBreak s ∧
    NewInMemoryReader (utf8Encode s) = NewInMemoryReader (utf8Encode (s ++ ['\n'])) ∧
    (∃ r1, (NewInMemoryReader (utf8Encode (s ++ ['\n']))).readTrace (s.length + 2) =
      some (expectedReads (s ++ ['\n']) ++
        [(⟨((linesOfText s).length : Int) + 1, 1⟩, ⟨0, 0, some Error.EOF⟩)], r1)) ∧
    (expectedReads (s ++ ['\n'])).map (fun x => x.2.rune) =
      s.map (fun c => (c.toNat : Int)) ++ [10] ∧
    (NewInMemoryReader (utf8Encode [])).ReadRune =
      some (⟨0, 0, some Error.EOF⟩, ⟨[], ⟨1, 1⟩, []⟩) := by
  have htext : textOfLines (linesOfText s) = s ++ ['\n'] := by
    have := textOfLines_linesFrom [] s hne hlast
    simpa [linesOfText] using this
  have hchars : ∀ l ∈ linesOfText s, ∀ c ∈ l, c ≠ '\n' ∧ c ≠ '\r' := by
    intro l hl c hc
    refine ⟨linesFrom_no_newline [] s (by simp) l hl c hc, ?_⟩
    exact linesFrom_mem (fun c => c ≠ '\r') [] s (by simp)
      (fun c hc h => hcr (by rw [← h]; exact hc)) l hl c hc
  have hreads := readTrace_textOfLines (linesOfText s) hchars hlen
  rw [htext] at hreads
  have hlen2 : (s ++ ['\n']).length + 1 = s.length + 2 := by simp
  rw [hlen2] at hreads
  have hsame : NewInMemoryReader (utf8Encode s) = NewInMemoryReader (utf8Encode (s ++ ['\n'])) := by
    obtain ⟨t, c, hs⟩ : ∃ t c, s = t ++ [c] := by
      rcases List.eq_nil_or_concat s with h0 | ⟨t, c, h0⟩
      · exact absurd h0 hne
      · exact ⟨t, c, by simpa using h0⟩
    have hc : c ≠ '\n' := by
      intro h
      apply hlast
      rw [hs, h]
      simp
    have hbytes : utf8Encode s ≠ [] := by
      intro h0
      have h1 := length_le_flatMap_encode s
      have h2 := congrArg List.length h0
      simp only [utf8Encode, List.length_map, List.length_nil] at h2
      rw [h2] at h1
      exact hne (List.eq_nil_of_length_eq_zero (by omega))
    have hlastb : (utf8Encode s).getLast? ≠ some 10 := by
      rw [hs]
      exact utf8Encode_getLast t c 10 (by omega) (fun h => hc (Char_eq_of_toNat c '\n' h))
    rw [utf8Encode_append]
    exact (NewInMemoryReader_final_newline (utf8Encode s) hbytes hlastb).symm
  refine ⟨?_, hsame, ⟨_, hreads⟩, ?_, by decide⟩
  · exact ⟨_, _, by rw [hsame]; exact hreads⟩
  · unfold expectedReads
    rw [expectedReadsFrom_runes]
    simp

/-- Witness of C13 as amended: the text `ab\nc`, whose reads are `a`, `b`,
line break, `c`, line break and `io.EOF`. -/
theorem final_line_break_witness :
    (readsWithFinalBreak ['a', 'b', '\n', 'c'] ∧
    NewInMemoryReader (utf8Encode ['a', 'b', '\n', 'c']) =
      NewInMemoryReader (utf8Encode (['a', 'b', '\n', 'c'] ++ ['\n'])) ∧
    (∃ r1, (NewInMemoryReader (utf8Encode (['a', 'b', '\n', 'c'] ++ ['\n']))).readTrace
        ((['a', 'b', '\n', 'c'] : List Char).length + 2) =
      some (expectedReads (['a', 'b', '\n', 'c'] ++ ['\n']) ++
        [(⟨((linesOfText ['a', 'b', '\n', 'c']).length : Int) + 1, 1⟩,
          ⟨0, 0, some Error.EOF⟩)], r1)) ∧
    (expectedReads (['a', 'b', '\n', 'c'] ++ ['\n'])).map (fun x => x.2.rune) =
      (['a', 'b', '\n', 'c'] : List Char).map (fun c => (c.toNat : Int)) ++ [10] ∧
    (NewInMemoryReader (utf8Encode [])).ReadRune =
      some (⟨0, 0, some Error.EOF⟩, ⟨[], ⟨1, 1⟩, []⟩)) ∧
    (NewInMemoryReader (utf8Encode ['a', 'b', '\n', 'c'])).readTrace 6 =
      some ([(⟨1, 1⟩, ⟨97, 1, none⟩), (⟨1, 2⟩, ⟨98, 1, none⟩), (⟨1, 3⟩, ⟨10, 1, none⟩),
          (⟨2, 1⟩, ⟨99, 1, none⟩), (⟨2, 2⟩, ⟨10, 1, none⟩), (⟨3, 1⟩, ⟨0, 0, some Error.EOF⟩)],
        ⟨[[97, 98], [99]], ⟨3, 1⟩, []⟩) :=
  ⟨final_line_break ['a', 'b', '\n', 'c'] (by decide) (by decide) (by decide) (by decide),
    by decide⟩


/-! ## Carriage returns -/

/-- The scanner on a text made of lines that fit the buffer and hold no line
feed: each line loses the carriage return that ends it. -/
theorem scanLines_lines_dropCR (bls : List (List UInt8))
    (h : ∀ l ∈ bls, (∀ b ∈ l, b ≠ 10) ∧ l.length < MaxScanTokenSize) :
    scanLines ((bls.map (fun l => l ++ [10])).flatten) = bls.map dropCR := by
  unfold scanLines
  induction bls with
  | nil => simp [scanLinesFrom]
  | cons l ls ih =>
    obtain ⟨h1, h3⟩ := h l (List.mem_cons_self _ _)
    simp only [List.map_cons, List.flatten_cons, List.append_assoc, List.singleton_append]
    rw [scanLinesFrom_line [] l _ h1 (by simpa using h3),
      ih (fun x hx => h x (List.mem_cons_of_mem _ hx))]
    simp

/-- Dropping the final carriage return of the bytes of a line is dropping the
final carriage return of its characters. -/
theorem dropCR_utf8Encode (l : List Char) : dropCR (utf8Encode l) = utf8Encode (stripCR l) := by
  rcases List.eq_nil_or_concat l with h0 | ⟨t, c, h0⟩
  · subst h0
    rfl
  · have hl : l = t ++ [c] := by simpa using h0
    subst hl
    by_cases hc : c = '\r'
    · subst hc
      have e1 : stripCR (t ++ ['\r']) = t := by
        unfold stripCR
        rw [if_pos (by simp)]
        simp
      have e2 : utf8Encode (t ++ ['\r']) = utf8Encode t ++ [13] := by
        rw [utf8Encode_append]
        rfl
      rw [e1, e2]
      unfold dropCR
      rw [if_pos (by simp)]
      simp
    · have e1 : stripCR (t ++ [c]) = t ++ [c] := by
        unfold stripCR
        rw [if_neg]
        simpa using hc
      rw [e1]
      unfold dropCR
      rw [if_neg]
      exact utf8Encode_getLast t c 13 (by omega) (fun h => hc (Char_eq_of_toNat c '\r' h))

/-- The lines stored by `NewInMemoryReader` for a valid UTF-8 text made of
lines that fit the scanner's buffer: the characters of each line without the
carriage return that ends it. -/
theorem NewInMemoryReader_lines_stripCR (ls : List (List Char))
    (hnl : ∀ l ∈ ls, ∀ c ∈ l, c ≠ '\n')
    (hlen : ∀ l ∈ ls, (utf8Encode l).length < MaxScanTokenSize) :
    NewInMemoryReader (utf8Encode (textOfLines ls)) =
      ⟨ls.map (fun l => (stripCR l).map (fun c => (c.toNat : Int))), ⟨1, 1⟩, []⟩ := by
  unfold NewInMemoryReader
  rw [utf8Encode_textOfLines, scanLines_lines_dropCR]
  · simp only [List.map_map, TextPositionStart, InMemoryReader.mk.injEq, and_true]
    apply List.map_congr_left
    intro l _
    simp only [Function.comp_apply]
    rw [dropCR_utf8Encode, toRunes_utf8Encode]
  · intro bl hbl
    obtain ⟨l, hl, rfl⟩ := List.mem_map.1 hbl
    exact ⟨utf8Encode_ne l 10 (by omega)
      (fun c hc h0 => hnl l hl c hc (Char_eq_of_toNat c '\n' h0)), hlen l hl⟩

/-- C14, the claim as stated fails: over the input `a\r\nb` the reads are
`a` at `(1,1)`, the line break at `(1,2)`, `b` at `(2,1)`, the line break at
`(2,2)` and `io.EOF`; the carriage return is not returned, and the first line
break is read at `(1,2)`, not at `(1,3)`. -/
theorem carriage_return_counterexample :
    (NewInMemoryReader [97, 13, 10, 98]).readTrace 5 =
      some ([(⟨1, 1⟩, ⟨97, 1, none⟩), (⟨1, 2⟩, ⟨10, 1, none⟩), (⟨2, 1⟩, ⟨98, 1, none⟩),
          (⟨2, 2⟩, ⟨10, 1, none⟩), (⟨3, 1⟩, ⟨0, 0, some Error.EOF⟩)],
        ⟨[[97], [98]], ⟨3, 1⟩, []⟩) ∧
    ((NewInMemoryReader [97, 13, 10, 98]).readTrace 5).map
        (fun x => x.1.map (fun y => y.2.rune)) ≠ some [97, 13, 10, 98, 10] ∧
    utf8Encode ['a', '\r', '\n', 'b'] = [97, 13, 10, 98] := by
  decide

/-- C14, amended: the line feed ends a line, and one carriage return directly
before it belongs to the line end.  For every valid UTF-8 text made of lines,
each a sequence of characters other than line feed followed by a line feed and
below the scanner's token limit, the reader stores each line without the
carriage return that ends it, if any; every other character, a carriage
return included, is read in its place and counts as one column: the reads are
those of `linesReads` over these lines, then `io.EOF`.  An input that ends
without a line feed gives the reader of the input followed by a line feed, so
a carriage return that ends the input is dropped in the same way. -/
theorem carriage_return_model (ls : List (List Char))
    (hnl : ∀ l ∈ ls, ∀ c ∈ l, c ≠ '\n')
    (hlen : ∀ l ∈ ls, (utf8Encode l).length < MaxScanTokenSize) :
    NewInMemoryReader (utf8Encode (textOfLines ls)) =
      ⟨ls.map (fun l => (stripCR l).map (fun c => (c.toNat : Int))), ⟨1, 1⟩, []⟩ ∧
    (∃ r1, (NewInMemoryReader (utf8Encode (textOfLines ls))).readTrace
        ((ls.map (fun l => (stripCR l).length + 1)).sum + 1) =
      some (linesReads 1 (ls.map (fun l => (stripCR l).map (fun c => (c.toNat : Int)))) ++
        [(⟨(ls.length : Int) + 1, 1⟩, ⟨0, 0, some Error.EOF⟩)], r1)) ∧
    (∀ buf : List UInt8, buf ≠ [] → buf.getLast? ≠ some 10 →
      NewInMemoryReader buf = NewInMemoryReader (buf ++ [10])) := by
  have hlines := NewInMemoryReader_lines_stripCR ls hnl hlen
  refine ⟨hlines, ?_, fun buf h1 h2 => (NewInMemoryReader_final_newline buf h1 h2).symm⟩
  rw [hlines]
  have h := InMemoryReader.readTrace_lines [] []
    (ls.map (fun l => (stripCR l).map (fun c => (c.toNat : Int))))
  simp only [List.nil_append, List.length_nil, Nat.cast_zero, Int.zero_add, List.length_map,
    List.map_map] at h
  have h3 : (ls.map ((fun l => l.length + 1) ∘
      fun l => (stripCR l).map (fun c => (c.toNat : Int)))).sum =
      (ls.map (fun l => (stripCR l).length + 1)).sum := by
    congr 1
    apply List.map_congr_left
    intro l _
    simp
  rw [h3] at h
  exact ⟨_, h⟩

/-- Witness of C14 as amended: the text `a\rb\r\r\n` + `c\r\n`.  The carriage
returns inside the first line and the first of the two that end it are read
in their places, at the columns 2 and 4; the last one of each line is
dropped.  The input `a\r`, which ends without a line feed, reads `a` and the
line break. -/
theorem carriage_return_model_witness :
    (NewInMemoryReader (utf8Encode (textOfLines [['a', '\r', 'b', '\r', '\r'], ['c', '\r']])) =
      ⟨([['a', '\r', 'b', '\r', '\r'], ['c', '\r']] : List (List Char)).map
        (fun l => (stripCR l).map (fun c => (c.toNat : Int))), ⟨1, 1⟩, []⟩ ∧
    (∃ r1, (NewInMemoryReader (utf8Encode
          (textOfLines [['a', '\r', 'b', '\r', '\r'], ['c', '\r']]))).readTrace
        ((([['a', '\r', 'b', '\r', '\r'], ['c', '\r']] : List (List Char)).map
          (fun l => (stripCR l).length + 1)).sum + 1) =
      some (linesReads 1 (([['a', '\r', 'b', '\r', '\r'], ['c', '\r']] : List (List Char)).map
          (fun l => (stripCR l).map (fun c => (c.toNat : Int)))) ++
        [(⟨(([['a', '\r', 'b', '\r', '\r'], ['c', '\r']] : List (List Char)).length : Int) + 1, 1⟩,
          ⟨0, 0, some Error.EOF⟩)], r1)) ∧
    (∀ buf : List UInt8, buf ≠ [] → buf.getLast? ≠ some 10 →
      NewInMemoryReader buf = NewInMemoryReader (buf ++ [10]))) ∧
    (NewInMemoryReader [97, 13, 98, 13, 13, 10, 99, 13, 10]).readTrace 8 =
      some ([(⟨1, 1⟩, ⟨97, 1, none⟩), (⟨1, 2⟩, ⟨13, 1, none⟩), (⟨1, 3⟩, ⟨98, 1, none⟩),
          (⟨1, 4⟩, ⟨13, 1, none⟩), (⟨1, 5⟩, ⟨10, 1, none⟩), (⟨2, 1⟩, ⟨99, 1, none⟩),
          (⟨2, 2⟩, ⟨10, 1, none⟩), (⟨3, 1⟩, ⟨0, 0, some Error.EOF⟩)],
        ⟨[[97, 13, 98, 13], [99]], ⟨3, 1⟩, []⟩) ∧
    (NewInMemoryReader [97, 13]).readTrace 3 =
      some ([(⟨1, 1⟩, ⟨97, 1, none⟩), (⟨1, 2⟩, ⟨10, 1, none⟩),
          (⟨2, 1⟩, ⟨0, 0, some Error.EOF⟩)], ⟨[[97]], ⟨2, 1⟩, []⟩) :=
  ⟨carriage_return_model [['a', '\r', 'b', '\r', '\r'], ['c', '\r']] (by decide) (by decide),
    by decide, by decide⟩


/-! ## Rendering -/

theorem digitChar_spec (k : Nat) (h : k < 10) :
    (Nat.digitChar k).toNat = 48 + k := by
  interval_cases k <;> rfl

theorem decimalValue_snoc (ds : List Char) (c : Char) :
    decimalValue (ds ++ [c]) = decimalValue ds * 10 + (c.toNat - 48) := by
  simp [decimalValue, List.foldl_append]

/-- The digits `Nat.toDigitsCore` puts in front of `ds`, with enough fuel:
they are decimal digits and stand for `n`. -/
theorem toDigitsCore_spec (fuel n : Nat) (ds : List Char) (h : n < fuel) :
    ∃ front, Nat.toDigitsCore 10 fuel n ds = front ++ ds ∧ decimalValue front = n ∧
      ∀ c ∈ front, 48 ≤ c.toNat ∧ c.toNat ≤ 57 := by
  induction fuel generalizing n ds with
  | zero => omega
  | succ fuel ih =>
    have hd := digitChar_spec (n % 10) (Nat.mod_lt _ (by omega))
    rw [Nat.toDigitsCore]
    by_cases h0 : n / 10 = 0
    · simp only [h0, if_true]
      refine ⟨[Nat.digitChar (n % 10)], rfl, ?_, ?_⟩
      · simp only [decimalValue, List.foldl_cons, List.foldl_nil, hd]
        omega
      · intro c hc
        simp only [List.mem_singleton] at hc
        rw [hc, hd]
        omega
    · simp only [h0, if_false]
      obtain ⟨front, h1, h2, h3⟩ := ih (n / 10) (Nat.digitChar (n % 10) :: ds) (by omega)
      refine ⟨front ++ [Nat.digitChar (n % 10)], by rw [h1]; simp, ?_, ?_⟩
      · rw [decimalValue_snoc, h2, hd]
        omega
      · intro c hc
        simp only [List.mem_append, List.mem_singleton] at hc
        rcases hc with hc | hc
        · exact h3 c hc
        · rw [hc, hd]
          omega

/-- The rendering of a natural number is made of decimal digits and stands
for the number. -/
theorem decimal_spec (n : Nat) :
    decimalValue (decimal (n : Int)) = n ∧
      ∀ c ∈ decimal (n : Int), 48 ≤ c.toNat ∧ c.toNat ≤ 57 := by
  have e : decimal (n : Int) = Nat.toDigits 10 n := by
    unfold decimal
    rw [if_neg (by omega)]
    rfl
  obtain ⟨front, h1, h2, h3⟩ := toDigitsCore_spec (n + 1) n [] (by omega)
  rw [e, Nat.toDigits, h1, List.append_nil]
  exact ⟨h2, h3⟩

theorem decimal_of_nonneg (i : Int) (h : 0 ≤ i) : decimal i = decimal ((i.toNat : Nat) : Int) := by
  rw [Int.toNat_of_nonneg h]

/-- Two sequences that agree after being joined around a separator that
neither front part holds have the same parts. -/
theorem split_at_separator (x x2 y y2 : List Char) (sep : Char) (hx : sep ∉ x)
    (hx2 : sep ∉ x2) (h : x ++ sep :: y = x2 ++ sep :: y2) : x = x2 ∧ y = y2 := by
  induction x generalizing x2 with
  | nil =>
    cases x2 with
    | nil => simpa using h
    | cons c cs =>
      simp only [List.nil_append, List.cons_append, List.cons.injEq] at h
      exact absurd (List.mem_cons_self _ _) (h.1 ▸ hx2)
  | cons a as ih =>
    cases x2 with
    | nil =>
      simp only [List.nil_append, List.cons_append, List.cons.injEq] at h
      exact absurd (List.mem_cons_self _ _) (h.1 ▸ hx)
    | cons c cs =>
      simp only [List.cons_append, List.cons.injEq] at h
      obtain ⟨h1, h2⟩ := ih cs (fun hm => hx (List.mem_cons_of_mem _ hm))
        (fun hm => hx2 (List.mem_cons_of_mem _ hm)) h.2
      exact ⟨by rw [h.1, h1], h2⟩

theorem decimal_no_colon (n : Nat) : ':' ∉ decimal (n : Int) := by
  intro h
  have := (decimal_spec n).2 ':' h
  have e : (':' : Char).toNat = 58 := rfl
  omega

theorem decimal_injective (a b : Nat) (h : decimal (a : Int) = decimal (b : Int)) : a = b := by
  rw [← (decimal_spec a).1, ← (decimal_spec b).1, h]

/-- C16: string rendering.  The string of a position is the decimal of its
line, a colon and the decimal of its column, where the decimal of a natural
number is made of the digits `0` to `9` and stands for the number, and the
decimal of a negative number is a minus sign before the decimal of its
absolute value.  The string of a range is `[`, the string of its start, a
comma, the string of its end, `]`.  The position `(1, 2)` renders `1:2` and
the range from `(1, 2)` to `(3, 4)` renders `[1:2,3:4]`.  Two positions with
non-negative fields and the same string are equal. -/
theorem String_contract (p : TextPosition) (r : TextRange) :
    p.String = String.mk (decimal p.Line ++ [':'] ++ decimal p.Column) ∧
    (∀ n : Nat, decimalValue (decimal (n : Int)) = n ∧
      ∀ c ∈ decimal (n : Int), 48 ≤ c.toNat ∧ c.toNat ≤ 57) ∧
    (∀ n : Nat, 0 < n → decimal (-(n : Int)) = '-' :: decimal (n : Int)) ∧
    r.String = "[" ++ r.Start.String ++ "," ++ r.End.String ++ "]" ∧
    TextPosition.String ⟨1, 2⟩ = "1:2" ∧
    TextRange.String ⟨⟨1, 2⟩, ⟨3, 4⟩⟩ = "[1:2,3:4]" ∧
    (∀ a b : TextPosition, 0 ≤ a.Line → 0 ≤ a.Column → 0 ≤ b.Line → 0 ≤ b.Column →
      a.String = b.String → a = b) := by
  refine ⟨by simp [TextPosition.String], decimal_spec, ?_, rfl, by decide, by decide, ?_⟩
  · intro n hn
    unfold decimal
    rw [if_pos (by omega), if_neg (by omega)]
    simp
  · intro a b ha1 ha2 hb1 hb2 h
    have hdata : decimal a.Line ++ ':' :: decimal a.Column =
        decimal b.Line ++ ':' :: decimal b.Column := by
      have := congrArg String.data h
      simpa [TextPosition.String] using this
    rw [decimal_of_nonneg a.Line ha1, decimal_of_nonneg a.Column ha2,
      decimal_of_nonneg b.Line hb1, decimal_of_nonneg b.Column hb2] at hdata
    obtain ⟨h1, h2⟩ := split_at_separator _ _ _ _ ':' (decimal_no_colon _)
      (decimal_no_colon _) hdata
    have e1 := decimal_injective _ _ h1
    have e2 := decimal_injective _ _ h2
    have f1 : a.Line = b.Line := by omega
    have f2 : a.Column = b.Column := by omega
    cases a
    cases b
    simp only at f1 f2
    rw [f1, f2]

/-- Instances of C16: positions with several digits, and the rendering of a
negative field. -/
theorem String_contract_example :
    TextPosition.String ⟨12, 345⟩ = "12:345" ∧
    TextPosition.String ⟨0, 10⟩ = "0:10" ∧
    TextPosition.String ⟨-7, 1⟩ = "-7:1" ∧
    TextRange.String ⟨⟨10, 1⟩, ⟨11, 20⟩⟩ = "[10:1,11:20]" := by
  decide

end pc
